import Mathlib

/-!
# microbash: parsing and execution of a command line

A shallow embedding of `src/microbash.c`.

Modelling conventions.
* A C string is the list of its characters before the terminating NUL
  (`CStr`); the end of the list plays the role of the terminator.
* A `char*` that may be `NULL` is an `Option CStr`; an `argv` array is the
  list of its initialised slots, the `NULL` sentinel included (`Argv`).
* A growable array with its element count (`commands`/`command_no`,
  `arguments`/`size`) is a list; the count is its length.
* System calls are answered by an oracle (`Kernel`); every call a process
  makes is recorded in a trace of events (`Ev`), and a function ends in an
  `Outcome` telling whether it returned, called `exit`, or replaced the
  process image.  A call of `sys_error` is a diagnostic followed by
  `exited EXIT_FAILURE`.  `malloc`, `realloc` and `sprintf` are assumed to
  succeed.
-/

set_option linter.unusedVariables false

set_option linter.unnecessarySeqFocus false

namespace Microbash

/-- A C string: its characters before the terminating NUL. -/
abbrev CStr := List Char

/-- An argument vector: the initialised slots of a `char**`, `none` being `NULL`. -/
abbrev Argv := List (Option CStr)

/-- The diagnostics the program writes to the error stream. -/
inductive Diag
  | empty_command
  | redirect_spaces
  | multiple_redirect
  | no_env_match (name : CStr)
  | only_redirections
  | redirect_out_first
  | redirect_in_last
  | redirect_between
  | cd_too_many
  | cd_error (path : CStr)
  | cd_redirect
  | cd_not_alone
  | open_input_error (path : CStr)
  | open_output_error (path : CStr)
  | execvp_error (file : CStr)
  | pipe_error
  | fork_error
  | dup_in_error
  | dup_out_error
  | close_error
  | wait_error
  | child_signal (signo : Nat)
  | other_status
  deriving DecidableEq, Repr

/-- Events of a run: diagnostics, calls of `exec` and `change_dir`, system calls. -/
inductive Ev
  | diag (d : Diag)
  | call_change_dir (arguments : Argv)
  | call_exec (command : List Argv) (input_redirect_path output_redirect_path : Option CStr)
  | chdir (path : CStr)
  | pipe (slot : Nat)
  | fork (i : Nat)
  | dup2 (oldfd newfd : Int)
  | sys_open (path : CStr) (flags : Nat) (mode : Option Nat)
  | close (fd : Int)
  | wait
  | execvp (file : Option CStr) (argv : Argv)
  deriving DecidableEq, Repr

/-- How a function activation ends. -/
inductive Outcome
  | returned (value : Int)
  | exited (status : Int)
  | replaced
  | undefined
  deriving DecidableEq, Repr

/-- The trace of a function activation and the way it ended. -/
structure Run where
  trace : List Ev
  fin : Outcome
  deriving DecidableEq, Repr

/-- A statement sequence that either falls through (`stop = none`) or ends the activation. -/
structure Step where
  trace : List Ev
  stop : Option Outcome
  deriving DecidableEq, Repr

/-- Run `r` after the statements `s`, unless `s` already ended the activation. -/
def Step.andThen (s : Step) (r : Run) : Run :=
  match s.stop with
  | some o => ⟨s.trace, o⟩
  | none => ⟨s.trace ++ r.trace, r.fin⟩

/-- Prefix a run with events. -/
def Run.after (t : List Ev) (r : Run) : Run := ⟨t ++ r.trace, r.fin⟩

/-- The status word filled in by `wait`, by the three kinds the code tells apart. -/
inductive WaitStatus
  | exited (code : Nat)
  | signaled (signo : Nat)
  | other
  deriving DecidableEq, Repr

/-- The operating system as seen by one process: the answers of the system calls. -/
structure Kernel where
  getenv : CStr → Option CStr
  chdir : CStr → Bool
  pipe : Nat → Option (Int × Int)
  fork : Nat → Bool
  sys_open : CStr → Nat → Option Int
  dup2 : Int → Int → Bool
  close : Int → Bool
  execvp : Option CStr → Argv → Bool
  wait : Nat → Option WaitStatus

/-- The value of `EXIT_FAILURE` in `stdlib.h`. -/
def EXIT_FAILURE : Int := 1

/-- Descriptor number of standard input in `unistd.h`. -/
def STDIN_FILENO : Int := 0

/-- Descriptor number of standard output in `unistd.h`. -/
def STDOUT_FILENO : Int := 1

/-- The number of `SIGPIPE` in `signal.h` (Linux value). -/
def SIGPIPE : Nat := 13

/-- Read-only access flag of `fcntl.h` (Linux value). -/
def O_RDONLY : Nat := 0

/-- Write-only access flag of `fcntl.h` (Linux value). -/
def O_WRONLY : Nat := 0o1

/-- Create-if-absent flag of `fcntl.h` (Linux value). -/
def O_CREAT : Nat := 0o100

/-- Append flag of `fcntl.h` (Linux value). -/
def O_APPEND : Nat := 0o2000

/-- Owner read bit of `sys/stat.h`. -/
def S_IRUSR : Nat := 0o400

/-- Owner write bit of `sys/stat.h`. -/
def S_IWUSR : Nat := 0o200

/-- Group read bit of `sys/stat.h`. -/
def S_IRGRP : Nat := 0o40

/-- Group write bit of `sys/stat.h`. -/
def S_IWGRP : Nat := 0o20

/-- Others read bit of `sys/stat.h`. -/
def S_IROTH : Nat := 0o4

/-- The function `check_spaces(string, end)`: only spaces up to `end` or the end of the string. -/
def check_spaces : CStr → Char → Bool
  | [], _ => true
  | c :: cs, e =>
    if c = e then true
    else if c ≠ ' ' then false
    else check_spaces cs e

/-- One call of `strtok_r` with a one-character delimiter set, from the saved
position `str`: leading delimiters are skipped; `none` when nothing is left,
else the token and the new saved position (just past the delimiter that ended
the token). -/
def strtok_r (delim : Char) (str : CStr) : Option (CStr × CStr) :=
  match str.dropWhile (fun c => c == delim) with
  | [] => none
  | c :: cs =>
    some ((c :: cs).takeWhile (fun x => x != delim),
          ((c :: cs).dropWhile (fun x => x != delim)).tail)

/-- The tokens of the loop
`for (t = strtok_r(s, d, &rest); t != NULL; t = strtok_r(NULL, d, &rest))`,
in the order the loop sees them, with `fuel` bounding the iterations. -/
def strtok_loop (delim : Char) : Nat → CStr → List CStr
  | 0, _ => []
  | fuel + 1, str =>
    match strtok_r delim str with
    | none => []
    | some (tok, rest) => tok :: strtok_loop delim fuel rest

/-- All tokens of `str`: every token takes at least one character, so
`str.length + 1` iterations are enough. -/
def tokens (delim : Char) (str : CStr) : List CStr :=
  strtok_loop delim (str.length + 1) str

/-- The function `split_commands`: the pieces of `command` between `|`. -/
def split_commands (command : CStr) : List CStr := tokens '|' command

/-- The function `check_redirection_argument(arg, redirect_path)`: the new value of
`*redirect_path`, or the diagnostic. -/
def check_redirection_argument (arg : CStr) (redirect_path : Option CStr) :
    Except Diag (Option CStr) :=
  if arg.length = 0 then .error .redirect_spaces
  else if redirect_path ≠ none then .error .multiple_redirect
  else .ok (some arg)

/-- What `get_arguments` hands back for one stage. -/
structure Command where
  arguments : Argv
  input_redirect_path : Option CStr
  output_redirect_path : Option CStr
  deriving DecidableEq, Repr

/-- The state of the token loop of `get_arguments`: the arguments stored so far
(`size` is the length) and the two redirection paths. -/
structure ArgState where
  args : List CStr
  input_redirect_path : Option CStr
  output_redirect_path : Option CStr
  deriving DecidableEq, Repr

/-- The test `arg[0] == c` on a token. -/
def starts (c : Char) (arg : CStr) : Bool := arg.head? == some c

/-- The body of the token loop of `get_arguments` for the token `arg`
(`arg + 1` is `arg.tail`). -/
def arg_step (getenv : CStr → Option CStr) (arg : CStr) (st : ArgState) :
    Except Diag ArgState :=
  if starts '>' arg then
    match check_redirection_argument arg.tail st.output_redirect_path with
    | .error d => .error d
    | .ok p => .ok { st with output_redirect_path := p }
  else if starts '<' arg then
    match check_redirection_argument arg.tail st.input_redirect_path with
    | .error d => .error d
    | .ok p => .ok { st with input_redirect_path := p }
  else if starts '$' arg then
    match getenv arg.tail with
    | none => .error (.no_env_match arg.tail)
    | some env_var => .ok { st with args := st.args ++ [env_var] }
  else .ok { st with args := st.args ++ [arg] }

/-- The token loop of `get_arguments`, over the tokens still to come. -/
def get_arguments_loop (getenv : CStr → Option CStr) :
    List CStr → ArgState → Except Diag ArgState
  | [], st => .ok st
  | arg :: rest, st =>
    match arg_step getenv arg st with
    | .error d => .error d
    | .ok st1 => get_arguments_loop getenv rest st1

/-- The part of `get_arguments` after tokenisation: the loop, the `size == 0`
check and the `NULL` stored at index `size`. -/
def get_arguments_tokens (getenv : CStr → Option CStr) (toks : List CStr) :
    Except Diag Command :=
  match get_arguments_loop getenv toks ⟨[], none, none⟩ with
  | .error d => .error d
  | .ok st =>
    if st.args.length = 0 then .error .only_redirections
    else .ok ⟨st.args.map some ++ [none], st.input_redirect_path, st.output_redirect_path⟩

/-- The function `get_arguments(command, ...)`, called with both paths `NULL`. -/
def get_arguments (getenv : CStr → Option CStr) (command : CStr) : Except Diag Command :=
  get_arguments_tokens getenv (tokens ' ' command)

/-- What `parse_line` hands back: `parsed_line` (`command_no` is its length)
and the two pipeline-level redirection paths. -/
structure Parsed where
  line : List Argv
  input_redirect_path : Option CStr
  output_redirect_path : Option CStr
  deriving DecidableEq, Repr

/-- The loop of `parse_line` over the stages still to come; `i` is the index of
the next one and `command_no` the number of stages. -/
def parse_loop (getenv : CStr → Option CStr) (command_no : Nat) :
    List CStr → Nat → Parsed → Except Diag Parsed
  | [], _, st => .ok st
  | c :: cs, i, st =>
    match get_arguments getenv c with
    | .error d => .error d
    | .ok cmd =>
      if command_no > 1 ∧ i = 0 ∧ cmd.output_redirect_path ≠ none then
        .error .redirect_out_first
      else if command_no > 1 ∧ i = command_no - 1 ∧ cmd.input_redirect_path ≠ none then
        .error .redirect_in_last
      else if command_no > 1 ∧ (i ≠ 0 ∧ i ≠ command_no - 1) ∧
          (cmd.input_redirect_path ≠ none ∨ cmd.output_redirect_path ≠ none) then
        .error .redirect_between
      else
        parse_loop getenv command_no cs (i + 1)
          { line := st.line ++ [cmd.arguments]
            input_redirect_path :=
              match cmd.input_redirect_path with
              | some p => some p
              | none => st.input_redirect_path
            output_redirect_path :=
              match cmd.output_redirect_path with
              | some p => some p
              | none => st.output_redirect_path }

/-- The function `parse_line(command, ...)`, called with no stage parsed and both paths `NULL`. -/
def parse_line (getenv : CStr → Option CStr) (command : CStr) : Except Diag Parsed :=
  parse_loop getenv (split_commands command).length (split_commands command) 0 ⟨[], none, none⟩

/-- The builtin `change_dir(arguments)`.  The counting loop stops with status 1
at a third non-`NULL` slot; `path` is slot 1 when exactly two slots were
counted, else `getenv("HOME")`.  A `NULL` path (HOME unset) reaches
`chdir`/`strlen` with a null pointer: undefined. -/
def change_dir (k : Kernel) (arguments : Argv) : Run :=
  match arguments with
  | some _ :: some _ :: some _ :: _ => ⟨[.diag .cd_too_many], .returned 1⟩
  | some _ :: some a1 :: _ =>
    if k.chdir a1 then ⟨[.chdir a1], .returned 0⟩
    else ⟨[.chdir a1, .diag (.cd_error a1)], .returned 1⟩
  | _ =>
    match k.getenv ['H', 'O', 'M', 'E'] with
    | none => ⟨[], .undefined⟩
    | some home =>
      if k.chdir home then ⟨[.chdir home], .returned 0⟩
      else ⟨[.chdir home, .diag (.cd_error home)], .returned 1⟩

/-- The first loop of `exec`: `pipe(pipe_fds + i * 2)` for `i < command_no - 1`;
`todo` is the number of iterations left.  Gives the descriptors stored, or
`none` after `sys_error`. -/
def create_pipes (k : Kernel) : Nat → Nat → List Ev × Option (List Int)
  | 0, _ => ([], some [])
  | todo + 1, i =>
    match k.pipe i with
    | none => ([.pipe i, .diag .pipe_error], none)
    | some (r, w) =>
      let rest := create_pipes k todo (i + 1)
      (.pipe i :: rest.1, rest.2.map (fun fds => r :: w :: fds))

/-- Child of `exec`, standard input: the read end `pipe_fds[i - 2]` when
`i != 0`, else the input file when there is one. -/
def child_stdin (k : Kernel) (input_redirect_path : Option CStr) (pipe_fds : List Int)
    (i : Nat) : Step :=
  if i ≠ 0 then
    if k.dup2 (pipe_fds.getD (i - 2) (-1)) STDIN_FILENO then
      ⟨[.dup2 (pipe_fds.getD (i - 2) (-1)) STDIN_FILENO], none⟩
    else
      ⟨[.dup2 (pipe_fds.getD (i - 2) (-1)) STDIN_FILENO, .diag .dup_in_error],
        some (.exited EXIT_FAILURE)⟩
  else
    match input_redirect_path with
    | none => ⟨[], none⟩
    | some path =>
      match k.sys_open path O_RDONLY with
      | none =>
        ⟨[.sys_open path O_RDONLY none, .diag (.open_input_error path)], some (.returned 1)⟩
      | some input_fd =>
        if k.dup2 input_fd STDIN_FILENO then
          if k.close input_fd then
            ⟨[.sys_open path O_RDONLY none, .dup2 input_fd STDIN_FILENO, .close input_fd], none⟩
          else
            ⟨[.sys_open path O_RDONLY none, .dup2 input_fd STDIN_FILENO, .close input_fd,
              .diag .close_error], some (.exited EXIT_FAILURE)⟩
        else
          ⟨[.sys_open path O_RDONLY none, .dup2 input_fd STDIN_FILENO, .diag .dup_in_error],
            some (.exited EXIT_FAILURE)⟩

/-- Flags of the output file: `O_CREAT | O_APPEND | O_WRONLY`. -/
def output_flags : Nat := O_CREAT ||| O_APPEND ||| O_WRONLY

/-- Mode of the output file: `S_IROTH | S_IWGRP | S_IWUSR | S_IRUSR | S_IRGRP`. -/
def output_mode : Nat := S_IROTH ||| S_IWGRP ||| S_IWUSR ||| S_IRUSR ||| S_IRGRP

/-- Child of `exec`, standard output: the write end `pipe_fds[i + 1]` when
`i / 2 < command_no - 1`, else the output file when there is one. -/
def child_stdout (k : Kernel) (command_no : Nat) (output_redirect_path : Option CStr)
    (pipe_fds : List Int) (i : Nat) : Step :=
  if i / 2 < command_no - 1 then
    if k.dup2 (pipe_fds.getD (i + 1) (-1)) STDOUT_FILENO then
      ⟨[.dup2 (pipe_fds.getD (i + 1) (-1)) STDOUT_FILENO], none⟩
    else
      ⟨[.dup2 (pipe_fds.getD (i + 1) (-1)) STDOUT_FILENO, .diag .dup_out_error],
        some (.exited EXIT_FAILURE)⟩
  else
    match output_redirect_path with
    | none => ⟨[], none⟩
    | some path =>
      match k.sys_open path output_flags with
      | none =>
        ⟨[.sys_open path output_flags (some output_mode), .diag (.open_output_error path)],
          some (.returned 1)⟩
      | some output_fd =>
        if k.dup2 output_fd STDOUT_FILENO then
          if k.close output_fd then
            ⟨[.sys_open path output_flags (some output_mode), .dup2 output_fd STDOUT_FILENO,
              .close output_fd], none⟩
          else
            ⟨[.sys_open path output_flags (some output_mode), .dup2 output_fd STDOUT_FILENO,
              .close output_fd, .diag .close_error], some (.exited EXIT_FAILURE)⟩
        else
          ⟨[.sys_open path output_flags (some output_mode), .dup2 output_fd STDOUT_FILENO,
            .diag .dup_out_error], some (.exited EXIT_FAILURE)⟩

/-- The loops `for (j = 0; j < 2 * (command_no - 1); j++) close(pipe_fds[j]);`
of `exec` (result of `close` ignored); `todo` is the number of iterations left. -/
def close_pipes (pipe_fds : List Int) : Nat → Nat → List Ev
  | 0, _ => []
  | todo + 1, j => .close (pipe_fds.getD j (-1)) :: close_pipes pipe_fds todo (j + 1)

/-- Child of `exec`, last statement: `execvp(command[i / 2][0], command[i / 2])`,
and `sys_error` when it comes back. -/
def child_execvp (k : Kernel) (command : List Argv) (i : Nat) : Run :=
  let argv := command.getD (i / 2) []
  let file := argv.getD 0 none
  if k.execvp file argv then ⟨[.execvp file argv], .replaced⟩
  else ⟨[.execvp file argv, .diag (.execvp_error (file.getD []))], .exited EXIT_FAILURE⟩

/-- The child branch (`pid == 0`) of the fork loop of `exec`, for loop variable `i`. -/
def exec_child (k : Kernel) (command : List Argv) (command_no : Nat)
    (input_redirect_path output_redirect_path : Option CStr) (pipe_fds : List Int)
    (i : Nat) : Run :=
  (child_stdin k input_redirect_path pipe_fds i).andThen
    ((child_stdout k command_no output_redirect_path pipe_fds i).andThen
      (Run.after (close_pipes pipe_fds (2 * (command_no - 1)) 0)
        (child_execvp k command i)))

/-- The fork loop of `exec` in the parent: `for (i = 0; i < command_no * 2; i += 2)`.
Gives `none` when `fuel` runs out, else the forks made and whether all succeeded. -/
def fork_loop (k : Kernel) (command_no : Nat) : Nat → Nat → Option (List Ev × Bool)
  | 0, _ => none
  | fuel + 1, i =>
    if i < command_no * 2 then
      if k.fork i then
        (fork_loop k command_no fuel (i + 2)).map (fun r => (.fork i :: r.1, r.2))
      else some ([.fork i, .diag .fork_error], false)
    else some ([], true)

/-- The wait loop of `exec`: `todo` iterations are left, `i` is the loop
variable, `exit_status` the candidate recorded so far. -/
def wait_loop (k : Kernel) : Nat → Nat → Int → Run
  | 0, _, exit_status => ⟨[], .returned exit_status⟩
  | todo + 1, i, exit_status =>
    match k.wait i with
    | none => ⟨[.wait, .diag .wait_error], .exited EXIT_FAILURE⟩
    | some (.exited code) => Run.after [.wait] (wait_loop k todo (i + 1) code)
    | some (.signaled signo) =>
      if signo ≠ SIGPIPE then
        Run.after [.wait, .diag (.child_signal signo)] (wait_loop k todo (i + 1) exit_status)
      else Run.after [.wait] (wait_loop k todo (i + 1) exit_status)
    | some .other => Run.after [.wait, .diag .other_status] (wait_loop k todo (i + 1) exit_status)

/-- The function `exec` as the parent runs it. -/
def exec (k : Kernel) (command : List Argv) (command_no : Nat)
    (input_redirect_path output_redirect_path : Option CStr) : Run :=
  match create_pipes k (command_no - 1) 0 with
  | (t, none) => ⟨t, .exited EXIT_FAILURE⟩
  | (t, some pipe_fds) =>
    match fork_loop k command_no (command_no + 1) 0 with
    | none => ⟨t, .undefined⟩
    | some (tf, false) => ⟨t ++ tf, .exited EXIT_FAILURE⟩
    | some (tf, true) =>
      Run.after (t ++ tf ++ close_pipes pipe_fds (2 * (command_no - 1)) 0)
        (wait_loop k command_no 0 0)

/-- The test `strcmp(arguments[0], "cd") == 0`. -/
def is_cd (arguments : Argv) : Bool :=
  match arguments with
  | some name :: _ => name == ['c', 'd']
  | _ => false

/-- The function `my_system(command)`. -/
def my_system (k : Kernel) (command : CStr) : Run :=
  match parse_line k.getenv command with
  | .error d => ⟨[.diag d], .returned 1⟩
  | .ok p =>
    if p.line.length = 1 ∧ is_cd (p.line.getD 0 []) then
      if p.input_redirect_path = none ∧ p.output_redirect_path = none then
        Run.after [.call_change_dir (p.line.getD 0 [])] (change_dir k (p.line.getD 0 []))
      else ⟨[.diag .cd_redirect], .returned 1⟩
    else if p.line.length > 0 then
      if p.line.any is_cd then ⟨[.diag .cd_not_alone], .returned 1⟩
      else
        Run.after [.call_exec p.line p.input_redirect_path p.output_redirect_path]
          (exec k p.line p.line.length p.input_redirect_path p.output_redirect_path)
    else ⟨[], .returned 0⟩

/-- The scan of `main` for a `|` followed only by spaces up to the next `|` or
the end of the line: the final value of `empty_pipe`. -/
def empty_pipe : CStr → Bool
  | [] => false
  | c :: cs =>
    if c = '|' then
      if check_spaces cs '|' then true else empty_pipe cs
    else empty_pipe cs

/-- One turn of the loop of `main` on the line `command`: the run, whose
returned value is the new `last_exit_status`. -/
def main_step (k : Kernel) (command : CStr) : Run :=
  if check_spaces command '\x00' = false then
    if empty_pipe command = false then my_system k command
    else ⟨[.diag .empty_command], .returned 1⟩
  else ⟨[], .returned 0⟩

/-! ## The line buffer

`strtok_r` stores a NUL over the delimiter that ends each token it returns.  The
definitions below repeat the parsing functions together with the bytes the
line buffer holds afterwards. -/

/-- The truncate flag of `fcntl.h` (Linux value). -/
def O_TRUNC : Nat := 0o1000

/-- The NUL byte that ends a C string. -/
def NUL : Char := '\x00'

/-- One call of `strtok_r` together with its effect on the buffer.  `str` is the
text from the saved position to the terminating NUL.  The result is the
delimiters skipped, the token, the byte stored over the delimiter that ended
the token (`[NUL]`; `[]` when the token ran to the end of the string), and the
text from the new saved position. -/
def strtok_r_buf (delim : Char) (str : CStr) : Option (CStr × CStr × List Char × CStr) :=
  match str.dropWhile (fun c => c == delim) with
  | [] => none
  | c :: cs =>
    match (c :: cs).dropWhile (fun x => x != delim) with
    | [] =>
      some (str.takeWhile (fun c => c == delim),
            (c :: cs).takeWhile (fun x => x != delim), [], [])
    | _ :: rest =>
      some (str.takeWhile (fun c => c == delim),
            (c :: cs).takeWhile (fun x => x != delim), [NUL], rest)

/-- The token loop of `get_arguments` together with the bytes that the text
`str` has become when the loop ends. -/
def get_arguments_loop_buf (getenv : CStr → Option CStr) :
    Nat → CStr → ArgState → Except Diag ArgState × List Char
  | 0, str, st => (.ok st, str)
  | fuel + 1, str, st =>
    match strtok_r_buf ' ' str with
    | none => (.ok st, str)
    | some (skipped, arg, written, rest) =>
      match arg_step getenv arg st with
      | .error d => (.error d, skipped ++ arg ++ written ++ rest)
      | .ok st1 =>
        ((get_arguments_loop_buf getenv fuel rest st1).1,
          skipped ++ arg ++ written ++ (get_arguments_loop_buf getenv fuel rest st1).2)

/-- The function `get_arguments` together with the bytes of the stage after the call. -/
def get_arguments_buf (getenv : CStr → Option CStr) (command : CStr) :
    Except Diag Command × List Char :=
  ((match (get_arguments_loop_buf getenv (command.length + 1) command ⟨[], none, none⟩).1 with
    | .error d => .error d
    | .ok st =>
      if st.args.length = 0 then .error .only_redirections
      else .ok ⟨st.args.map some ++ [none], st.input_redirect_path, st.output_redirect_path⟩),
    (get_arguments_loop_buf getenv (command.length + 1) command ⟨[], none, none⟩).2)

/-- The function `split_commands` together with the pieces the buffer is made of
afterwards: for each stage the bytes skipped before it, the stage, and the byte
stored after it; then the bytes after the last stage. -/
def split_commands_buf : Nat → CStr → List (CStr × CStr × List Char) × List Char
  | 0, str => ([], str)
  | fuel + 1, str =>
    match strtok_r_buf '|' str with
    | none => ([], str)
    | some (skipped, stage, written, rest) =>
      ((skipped, stage, written) :: (split_commands_buf fuel rest).1,
        (split_commands_buf fuel rest).2)

/-- The bytes of a sequence of pieces. -/
def pieces_bytes : List (CStr × CStr × List Char) → List Char
  | [] => []
  | (skipped, stage, written) :: ps => skipped ++ stage ++ written ++ pieces_bytes ps

/-- The loop of `parse_line` together with the bytes that the pieces still to
come have become when it ends. -/
def parse_loop_buf (getenv : CStr → Option CStr) (command_no : Nat) :
    List (CStr × CStr × List Char) → Nat → Parsed → Except Diag Parsed × List Char
  | [], _, st => (.ok st, [])
  | (skipped, c, written) :: ps, i, st =>
    match (get_arguments_buf getenv c).1 with
    | .error d =>
      (.error d, skipped ++ (get_arguments_buf getenv c).2 ++ written ++ pieces_bytes ps)
    | .ok cmd =>
      if command_no > 1 ∧ i = 0 ∧ cmd.output_redirect_path ≠ none then
        (.error .redirect_out_first,
          skipped ++ (get_arguments_buf getenv c).2 ++ written ++ pieces_bytes ps)
      else if command_no > 1 ∧ i = command_no - 1 ∧ cmd.input_redirect_path ≠ none then
        (.error .redirect_in_last,
          skipped ++ (get_arguments_buf getenv c).2 ++ written ++ pieces_bytes ps)
      else if command_no > 1 ∧ (i ≠ 0 ∧ i ≠ command_no - 1) ∧
          (cmd.input_redirect_path ≠ none ∨ cmd.output_redirect_path ≠ none) then
        (.error .redirect_between,
          skipped ++ (get_arguments_buf getenv c).2 ++ written ++ pieces_bytes ps)
      else
        ((parse_loop_buf getenv command_no ps (i + 1)
            { line := st.line ++ [cmd.arguments]
              input_redirect_path :=
                match cmd.input_redirect_path with
                | some p => some p
                | none => st.input_redirect_path
              output_redirect_path :=
                match cmd.output_redirect_path with
                | some p => some p
                | none => st.output_redirect_path }).1,
          skipped ++ (get_arguments_buf getenv c).2 ++ written ++
            (parse_loop_buf getenv command_no ps (i + 1)
              { line := st.line ++ [cmd.arguments]
                input_redirect_path :=
                  match cmd.input_redirect_path with
                  | some p => some p
                  | none => st.input_redirect_path
                output_redirect_path :=
                  match cmd.output_redirect_path with
                  | some p => some p
                  | none => st.output_redirect_path }).2)

/-- The function `parse_line` together with the bytes of the line buffer (its
terminating NUL left out) after the call. -/
def parse_line_buf (getenv : CStr → Option CStr) (command : CStr) :
    Except Diag Parsed × List Char :=
  ((parse_loop_buf getenv (split_commands_buf (command.length + 1) command).1.length
      (split_commands_buf (command.length + 1) command).1 0 ⟨[], none, none⟩).1,
    (parse_loop_buf getenv (split_commands_buf (command.length + 1) command).1.length
      (split_commands_buf (command.length + 1) command).1 0 ⟨[], none, none⟩).2 ++
      (split_commands_buf (command.length + 1) command).2)

/-! ## The file store

The operating system and the programs a line runs are outside the repository.
The definitions below give the effect on files of the events of a child, as far
as output redirection needs it. -/

/-- A redirection token: it starts with `>` or `<`. -/
def is_redirect (t : CStr) : Bool := starts '>' t || starts '<' t

/-- The argument a non-redirection token stands for: the value of the variable
for a `$` token (`none` when unset), else the token itself. -/
def resolve (getenv : CStr → Option CStr) (t : CStr) : Option CStr :=
  if starts '$' t then getenv t.tail else some t

/-- The four ways the token loop of `get_arguments` fails, from the state `st`:
a bare `>` or `<`, a second redirection of one direction, an unset variable. -/
def loop_bad (getenv : CStr → Option CStr) (toks : List CStr) (st : ArgState) : Prop :=
  (∃ t ∈ toks, t = ['>'] ∨ t = ['<']) ∨
  2 ≤ (toks.filter (starts '>')).length + (if st.output_redirect_path = none then 0 else 1) ∨
  2 ≤ (toks.filter (starts '<')).length + (if st.input_redirect_path = none then 0 else 1) ∨
  (∃ t ∈ toks, starts '$' t = true ∧ getenv t.tail = none)

/-- The stage has a token that starts with `<`. -/
def carries_input (stage : CStr) : Bool := (tokens ' ' stage).any (starts '<')

/-- The stage has a token that starts with `>`. -/
def carries_output (stage : CStr) : Bool := (tokens ' ' stage).any (starts '>')

/-- An example environment: `FOO=bar`, `HOME=/home`, nothing else set. -/
def env_foo : CStr → Option CStr :=
  fun name =>
    if name = ['F', 'O', 'O'] then some ['b', 'a', 'r']
    else if name = ['H', 'O', 'M', 'E'] then some ['/', 'h', 'o', 'm', 'e']
    else none

/-- An example kernel: every call succeeds; the first child reaped exited with
code 3, the others were killed by signal 13. -/
def kernel_ok : Kernel where
  getenv := env_foo
  chdir := fun _ => true
  pipe := fun i => some (3 + 2 * (i : Int), 4 + 2 * (i : Int))
  fork := fun _ => true
  sys_open := fun _ _ => some 9
  dup2 := fun _ _ => true
  close := fun _ => true
  execvp := fun _ _ => true
  wait := fun i => if i = 0 then some (.exited 3) else some (.signaled 13)

/-- The exit code of the last status of the sequence that is a normal exit. -/
def last_normal_exit (statuses : List WaitStatus) : Option Nat :=
  (statuses.filterMap (fun s => match s with
    | .exited code => some code
    | _ => none)).getLast?

/-- The program name of a stage as the tokens give it: the argument its first
non-redirection token stands for. -/
def program_name (getenv : CStr → Option CStr) (stage : CStr) : Option CStr :=
  ((tokens ' ' stage).filter (fun t => !is_redirect t)).head?.bind (resolve getenv)

/-- The non-empty segments of `str` between occurrences of `delim`, in order. -/
def nonempty_segments (delim : Char) (str : CStr) : List CStr :=
  (str.splitOn delim).filter (fun seg => !seg.isEmpty)

/-- The C string that starts a sequence of bytes: the bytes before the first NUL. -/
def text_of (bytes : List Char) : CStr := bytes.takeWhile (fun c => c != NUL)

/-- What a byte of the line may have become: itself, or NUL where it was a `|` or a space. -/
def overwritten (a b : Char) : Prop := b = a ∨ (b = NUL ∧ (a = '|' ∨ a = ' '))

/-- The text the pieces were cut from: a stored NUL stands where a `|` was. -/
def pieces_text : List (CStr × CStr × List Char) → CStr
  | [] => []
  | (skipped, stage, written) :: ps =>
    skipped ++ stage ++ written.map (fun _ => '|') ++ pieces_text ps

/-- The event is a `pipe` call. -/
def Ev.is_pipe : Ev → Bool
  | .pipe _ => true
  | _ => false

/-- The loop variable of a `fork` call. -/
def Ev.fork_index : Ev → Option Nat
  | .fork i => some i
  | _ => none

/-- The event is a `wait` call. -/
def Ev.is_wait : Ev → Bool
  | .wait => true
  | _ => false

/-- The signal number named by a signal diagnostic. -/
def Ev.signal_diag : Ev → Option Nat
  | .diag (.child_signal signo) => some signo
  | _ => none

/-- The signal a reaped status is reported for: the terminating signal when it
is not `SIGPIPE`. -/
def reported_signal : WaitStatus → Option Nat
  | .signaled signo => if signo ≠ SIGPIPE then some signo else none
  | _ => none

/-- An example kernel: as `kernel_ok`, but every child reaped was killed by signal 9. -/
def kernel_killed : Kernel := { kernel_ok with wait := fun _ => some (.signaled 9) }

/-! ## Theorems -/

theorem starts_cases (t : CStr) (c : Char) :
    starts c t = true ↔ ∃ r, t = c :: r := by
  cases t with
  | nil => simp [starts]
  | cons a r =>
    constructor
    · intro h
      have e : a = c := by simpa [starts] using h
      exact ⟨r, by rw [e]⟩
    · rintro ⟨r1, h⟩
      have e : a = c := (List.cons.inj h).1
      simp [starts, e]

theorem starts_unique {t : CStr} {c d : Char} (h : starts c t = true) (hd : d ≠ c) :
    starts d t = false := by
  obtain ⟨r, rfl⟩ := (starts_cases t c).1 h
  simp only [starts, List.head?_cons, beq_eq_false_iff_ne, ne_eq, Option.some.injEq]
  exact fun e => hd e.symm

theorem arg_step_fail_iff (getenv : CStr → Option CStr) (t : CStr) (st : ArgState) :
    (∃ d, arg_step getenv t st = .error d) ↔ loop_bad getenv [t] st := by
  unfold arg_step loop_bad check_redirection_argument
  by_cases h1 : starts '>' t = true
  · have h2 := starts_unique (d := '<') h1 (by decide)
    have h3 := starts_unique (d := '$') h1 (by decide)
    obtain ⟨r, rfl⟩ := (starts_cases t '>').1 h1
    cases r <;> cases ho : st.output_redirect_path <;> simp_all <;> split_ifs <;> omega
  · by_cases h2 : starts '<' t = true
    · have h3 := starts_unique (d := '$') h2 (by decide)
      obtain ⟨r, rfl⟩ := (starts_cases t '<').1 h2
      cases r <;> cases ho : st.input_redirect_path <;> simp_all <;> split_ifs <;> omega
    · by_cases h3 : starts '$' t = true
      · obtain ⟨r, rfl⟩ := (starts_cases t '$').1 h3
        cases hg : getenv r <;> simp_all <;> constructor <;> split_ifs <;> omega
      · have e1 : t ≠ ['>'] := by rintro rfl; simp [starts] at h1
        have e2 : t ≠ ['<'] := by rintro rfl; simp [starts] at h2
        simp_all
        constructor <;> split_ifs <;> omega

theorem loop_bad_mono (getenv : CStr → Option CStr) (t : CStr) (rest : List CStr)
    (st : ArgState) (h : loop_bad getenv [t] st) : loop_bad getenv (t :: rest) st := by
  unfold loop_bad at h ⊢
  rcases h with h | h | h | h
  · left
    obtain ⟨x, hx, hx2⟩ := h
    exact ⟨x, by simp at hx; simp [hx], hx2⟩
  · right; left
    by_cases hs : starts '>' t = true <;> simp_all <;> omega
  · right; right; left
    by_cases hs : starts '<' t = true <;> simp_all <;> omega
  · right; right; right
    obtain ⟨x, hx, hx2⟩ := h
    exact ⟨x, by simp at hx; simp [hx], hx2⟩

theorem check_redirection_argument_ok (arg : CStr) (rp p : Option CStr)
    (h : check_redirection_argument arg rp = .ok p) :
    arg ≠ [] ∧ rp = none ∧ p = some arg := by
  unfold check_redirection_argument at h
  cases arg with
  | nil => simp at h
  | cons a r =>
    cases rp with
    | none =>
      simp at h
      exact ⟨by simp, rfl, h.symm⟩
    | some x => simp at h

theorem arg_step_ok_cases (getenv : CStr → Option CStr) (t : CStr) (st st1 : ArgState)
    (h : arg_step getenv t st = .ok st1) :
    (starts '>' t = true ∧ t.tail ≠ [] ∧ st.output_redirect_path = none ∧
        st1 = { st with output_redirect_path := some t.tail }) ∨
    (starts '>' t = false ∧ starts '<' t = true ∧ t.tail ≠ [] ∧
        st.input_redirect_path = none ∧
        st1 = { st with input_redirect_path := some t.tail }) ∨
    (starts '>' t = false ∧ starts '<' t = false ∧ starts '$' t = true ∧
        ∃ v, getenv t.tail = some v ∧ st1 = { st with args := st.args ++ [v] }) ∨
    (starts '>' t = false ∧ starts '<' t = false ∧ starts '$' t = false ∧
        st1 = { st with args := st.args ++ [t] }) := by
  unfold arg_step at h
  cases h1 : starts '>' t with
  | true =>
    left
    simp only [h1, if_true] at h
    cases hc : check_redirection_argument t.tail st.output_redirect_path with
    | error d => rw [hc] at h; cases h
    | ok p =>
      rw [hc] at h
      obtain ⟨ha, hb, rfl⟩ := check_redirection_argument_ok _ _ _ hc
      exact ⟨rfl, ha, hb, (Except.ok.inj h).symm⟩
  | false =>
    right
    simp only [h1] at h
    cases h2 : starts '<' t with
    | true =>
      left
      simp only [h2, if_true] at h
      cases hc : check_redirection_argument t.tail st.input_redirect_path with
      | error d => rw [hc] at h; simp at h
      | ok p =>
        rw [hc] at h
        obtain ⟨ha, hb, rfl⟩ := check_redirection_argument_ok _ _ _ hc
        simp at h
        exact ⟨rfl, rfl, ha, hb, h.symm⟩
    | false =>
      right
      simp only [h2] at h
      cases h3 : starts '$' t with
      | true =>
        left
        simp only [h3, if_true] at h
        cases hg : getenv t.tail with
        | none => simp [hg] at h
        | some v =>
          simp [hg] at h
          exact ⟨rfl, rfl, rfl, v, rfl, h.symm⟩
      | false =>
        right
        simp [h3] at h
        exact ⟨rfl, rfl, rfl, h.symm⟩

theorem arg_step_ok_bad (getenv : CStr → Option CStr) (t : CStr) (rest : List CStr)
    (st st1 : ArgState) (h : arg_step getenv t st = .ok st1) :
    loop_bad getenv (t :: rest) st ↔ loop_bad getenv rest st1 := by
  unfold loop_bad
  rcases arg_step_ok_cases getenv t st st1 h with
    ⟨h1, ht, ho, rfl⟩ | ⟨h1, h2, ht, ho, rfl⟩ | ⟨h1, h2, h3, v, hv, rfl⟩ | ⟨h1, h2, h3, rfl⟩
  · have h2 := starts_unique (d := '<') h1 (by decide)
    have h3 := starts_unique (d := '$') h1 (by decide)
    have e1 : t ≠ ['>'] := by rintro rfl; simp at ht
    have e2 : t ≠ ['<'] := by rintro rfl; simp [starts] at h1
    simp [h1, h2, h3, ho, e1, e2]
  · have h3 := starts_unique (d := '$') h2 (by decide)
    have e1 : t ≠ ['>'] := by rintro rfl; simp [starts] at h1
    have e2 : t ≠ ['<'] := by rintro rfl; simp at ht
    simp [h1, h2, h3, ho, e1, e2]
  · have e1 : t ≠ ['>'] := by rintro rfl; simp [starts] at h1
    have e2 : t ≠ ['<'] := by rintro rfl; simp [starts] at h2
    simp [h1, h2, h3, hv, e1, e2]
  · have e1 : t ≠ ['>'] := by rintro rfl; simp [starts] at h1
    have e2 : t ≠ ['<'] := by rintro rfl; simp [starts] at h2
    simp [h1, h2, h3, e1, e2]

theorem loop_fail_iff (getenv : CStr → Option CStr) (toks : List CStr) :
    ∀ st : ArgState, (∃ d, get_arguments_loop getenv toks st = .error d) ↔
      loop_bad getenv toks st := by
  induction toks with
  | nil =>
    intro st
    simp [get_arguments_loop, loop_bad]
    constructor <;> split_ifs <;> omega
  | cons t rest ih =>
    intro st
    unfold get_arguments_loop
    cases h : arg_step getenv t st with
    | error d =>
      simp only [exists_apply_eq_apply', true_iff]
      exact loop_bad_mono getenv t rest st ((arg_step_fail_iff getenv t st).1 ⟨d, h⟩)
    | ok st1 =>
      simp only
      rw [ih st1, arg_step_ok_bad getenv t rest st st1 h]

theorem loop_ok_spec (getenv : CStr → Option CStr) (toks : List CStr) :
    ∀ st st2 : ArgState, get_arguments_loop getenv toks st = .ok st2 →
      st2.args.map some = st.args.map some ++
          (toks.filter (fun t => !is_redirect t)).map (resolve getenv) ∧
      st2.output_redirect_path =
        (match (toks.filter (starts '>')).getLast? with
          | some t => some t.tail
          | none => st.output_redirect_path) ∧
      st2.input_redirect_path =
        (match (toks.filter (starts '<')).getLast? with
          | some t => some t.tail
          | none => st.input_redirect_path) := by
  induction toks with
  | nil =>
    intro st st2 h
    simp [get_arguments_loop] at h
    simp [h]
  | cons t rest ih =>
    intro st st2 h
    unfold get_arguments_loop at h
    cases hs : arg_step getenv t st with
    | error d => simp [hs] at h
    | ok st1 =>
      simp only [hs] at h
      obtain ⟨ia, io, ii⟩ := ih st1 st2 h
      rcases arg_step_ok_cases getenv t st st1 hs with
        ⟨h1, ht, ho, rfl⟩ | ⟨h1, h2, ht, ho, rfl⟩ | ⟨h1, h2, h3, v, hv, rfl⟩ | ⟨h1, h2, h3, rfl⟩
      · have h2 := starts_unique (d := '<') h1 (by decide)
        refine ⟨by simpa [is_redirect, h1] using ia, ?_, by simpa [h2] using ii⟩
        rw [io]
        simp only [List.filter_cons, h1, if_true]
        cases hl : List.filter (starts '>') rest with
        | nil => simp
        | cons x xs =>
          simp [List.getLast?_cons_cons, List.getLast?_eq_getLast (x :: xs) (by simp)]
      · refine ⟨by simpa [is_redirect, h1, h2] using ia, by simpa [h1] using io, ?_⟩
        rw [ii]
        simp only [List.filter_cons, h2, if_true]
        cases hl : List.filter (starts '<') rest with
        | nil => simp
        | cons x xs =>
          simp [List.getLast?_cons_cons, List.getLast?_eq_getLast (x :: xs) (by simp)]
      · refine ⟨?_, by simpa [h1] using io, by simpa [h2] using ii⟩
        simp [ia, is_redirect, h1, h2, resolve, h3, hv]
      · refine ⟨?_, by simpa [h1] using io, by simpa [h2] using ii⟩
        simp [ia, is_redirect, h1, h2, resolve, h3]

theorem get_arguments_tokens_fail_iff (getenv : CStr → Option CStr) (toks : List CStr) :
    (∃ d, get_arguments_tokens getenv toks = .error d) ↔
      ((∃ t ∈ toks, t = ['>'] ∨ t = ['<']) ∨
       (2 ≤ (toks.filter (starts '>')).length ∨
        2 ≤ (toks.filter (starts '<')).length) ∨
       (∃ t ∈ toks, starts '$' t = true ∧ getenv t.tail = none) ∨
       (∀ t ∈ toks, is_redirect t = true)) := by
  unfold get_arguments_tokens
  have hb := loop_fail_iff getenv toks ⟨[], none, none⟩
  cases h : get_arguments_loop getenv toks ⟨[], none, none⟩ with
  | error d =>
    have : loop_bad getenv toks ⟨[], none, none⟩ := hb.1 ⟨d, h⟩
    unfold loop_bad at this
    simp only [exists_apply_eq_apply', true_iff]
    simp only [if_true, add_zero] at this
    rcases this with a | b | c | e
    · exact Or.inl a
    · exact Or.inr (Or.inl (Or.inl b))
    · exact Or.inr (Or.inl (Or.inr c))
    · exact Or.inr (Or.inr (Or.inl e))
  | ok st =>
    have hnb : ¬ loop_bad getenv toks ⟨[], none, none⟩ := by
      rw [← hb, h]; simp
    unfold loop_bad at hnb
    simp only [if_true, add_zero] at hnb
    have ha := (loop_ok_spec getenv toks _ st h).1
    have hl := congrArg List.length ha
    simp only [List.map_nil, List.nil_append, List.length_map] at hl
    have h4 : (∀ t ∈ toks, is_redirect t = true) ↔ st.args.length = 0 := by
      rw [hl, List.length_eq_zero, List.filter_eq_nil_iff]
      simp
    rw [h4]
    by_cases hz : st.args.length = 0
    · simp [hz]
    · simp only [hz, if_false]
      constructor
      · rintro ⟨d, hd⟩; cases hd
      · intro h'
        exfalso
        rcases h' with a | (b | c) | e | f
        · exact hnb (Or.inl a)
        · exact hnb (Or.inr (Or.inl b))
        · exact hnb (Or.inr (Or.inr (Or.inl c)))
        · exact hnb (Or.inr (Or.inr (Or.inr e)))
        · exact f

theorem unique_of_length_le_one {α : Type} (l : List α) (h : l.length < 2) :
    (l = [] ∧ l.getLast? = none) ∨ ∃ t, l = [t] ∧ l.getLast? = some t := by
  match l, h with
  | [], _ => left; simp
  | [t], _ => right; exact ⟨t, rfl, rfl⟩
  | _ :: _ :: _, h => exact absurd h (by simp)

theorem get_arguments_tokens_ok (getenv : CStr → Option CStr) (toks : List CStr)
    (cmd : Command) (h : get_arguments_tokens getenv toks = .ok cmd) :
    cmd.arguments =
        (toks.filter (fun t => !is_redirect t)).map (resolve getenv) ++ [none] ∧
    (∀ t ∈ toks.filter (fun t => !is_redirect t),
        ∃ v, resolve getenv t = some v) ∧
    cmd.arguments[(toks.filter (fun t => !is_redirect t)).length]? = some none ∧
    (∀ j, j < (toks.filter (fun t => !is_redirect t)).length →
        ∃ v, cmd.arguments[j]? = some (some v)) ∧
    ((toks.filter (starts '>') = [] ∧ cmd.output_redirect_path = none) ∨
      ∃ t, toks.filter (starts '>') = [t] ∧
        cmd.output_redirect_path = some t.tail) ∧
    ((toks.filter (starts '<') = [] ∧ cmd.input_redirect_path = none) ∨
      ∃ t, toks.filter (starts '<') = [t] ∧
        cmd.input_redirect_path = some t.tail) := by
  unfold get_arguments_tokens at h
  have hb := loop_fail_iff getenv toks ⟨[], none, none⟩
  cases hl : get_arguments_loop getenv toks ⟨[], none, none⟩ with
  | error d => rw [hl] at h; cases h
  | ok st =>
    rw [hl] at h
    have hnb : ¬ loop_bad getenv toks ⟨[], none, none⟩ := by
      rw [← hb, hl]; simp
    unfold loop_bad at hnb
    simp only [if_true, add_zero] at hnb
    obtain ⟨ha, ho, hi⟩ := loop_ok_spec getenv toks _ st hl
    simp only [List.map_nil, List.nil_append] at ha
    by_cases hz : st.args.length = 0
    · simp [hz] at h
    · simp only [hz, if_false] at h
      have hc := Except.ok.inj h
      subst hc
      simp only
      have hsome : ∀ t ∈ toks.filter (fun t => !is_redirect t), ∃ v, resolve getenv t = some v := by
        intro t ht
        have : resolve getenv t ∈ List.map some st.args := by
          rw [ha]; exact List.mem_map_of_mem _ ht
        obtain ⟨v, _, hv⟩ := List.mem_map.1 this
        exact ⟨v, hv.symm⟩
      have hlen : (toks.filter (fun t => !is_redirect t)).length = st.args.length := by
        have := congrArg List.length ha
        simpa using this.symm
      refine ⟨by rw [ha], hsome, ?_, ?_, ?_, ?_⟩
      · rw [hlen, List.getElem?_append_right (by simp)]
        simp
      · intro j hj
        rw [hlen] at hj
        rw [List.getElem?_append_left (by simpa using hj)]
        exact ⟨st.args[j], by simp [hj]⟩
      · rcases unique_of_length_le_one (toks.filter (starts '>')) (by omega) with
          ⟨e, e2⟩ | ⟨t, e, e2⟩
        · left; rw [ho, e2]; exact ⟨e, rfl⟩
        · right; rw [ho, e2]; exact ⟨t, e, rfl⟩
      · rcases unique_of_length_le_one (toks.filter (starts '<')) (by omega) with
          ⟨e, e2⟩ | ⟨t, e, e2⟩
        · left; rw [hi, e2]; exact ⟨e, rfl⟩
        · right; rw [hi, e2]; exact ⟨t, e, rfl⟩
theorem carries_input_iff (getenv : CStr → Option CStr) (stage : CStr) (cmd : Command)
    (h : get_arguments getenv stage = .ok cmd) :
    carries_input stage = false ↔ cmd.input_redirect_path = none := by
  have h6 := (get_arguments_tokens_ok getenv _ cmd h).2.2.2.2.2
  unfold carries_input
  rw [List.any_eq_false]
  rcases h6 with ⟨e, e2⟩ | ⟨t, e, e2⟩
  · rw [e2]
    simp only [iff_true]
    intro x hx hs
    have : x ∈ (tokens ' ' stage).filter (starts '<') := List.mem_filter.2 ⟨hx, hs⟩
    rw [e] at this
    cases this
  · rw [e2]
    simp only [reduceCtorEq, iff_false, not_forall]
    have : t ∈ (tokens ' ' stage).filter (starts '<') := by rw [e]; simp
    obtain ⟨h1, h2⟩ := List.mem_filter.1 this
    exact ⟨t, h1, by simp [h2]⟩

theorem carries_output_iff (getenv : CStr → Option CStr) (stage : CStr) (cmd : Command)
    (h : get_arguments getenv stage = .ok cmd) :
    carries_output stage = false ↔ cmd.output_redirect_path = none := by
  have h5 := (get_arguments_tokens_ok getenv _ cmd h).2.2.2.2.1
  unfold carries_output
  rw [List.any_eq_false]
  rcases h5 with ⟨e, e2⟩ | ⟨t, e, e2⟩
  · rw [e2]
    simp only [iff_true]
    intro x hx hs
    have : x ∈ (tokens ' ' stage).filter (starts '>') := List.mem_filter.2 ⟨hx, hs⟩
    rw [e] at this
    cases this
  · rw [e2]
    simp only [reduceCtorEq, iff_false, not_forall]
    have : t ∈ (tokens ' ' stage).filter (starts '>') := by rw [e]; simp
    obtain ⟨h1, h2⟩ := List.mem_filter.1 this
    exact ⟨t, h1, by simp [h2]⟩

/-- One successful turn of the loop of `parse_line`. -/
theorem parse_loop_cons_ok (getenv : CStr → Option CStr) (n : Nat) (c : CStr)
    (cs : List CStr) (i : Nat) (st p : Parsed)
    (h : parse_loop getenv n (c :: cs) i st = .ok p) :
    ∃ cmd, get_arguments getenv c = .ok cmd ∧
      ¬ (n > 1 ∧ i = 0 ∧ cmd.output_redirect_path ≠ none) ∧
      ¬ (n > 1 ∧ i = n - 1 ∧ cmd.input_redirect_path ≠ none) ∧
      ¬ (n > 1 ∧ (i ≠ 0 ∧ i ≠ n - 1) ∧
          (cmd.input_redirect_path ≠ none ∨ cmd.output_redirect_path ≠ none)) ∧
      parse_loop getenv n cs (i + 1)
        { line := st.line ++ [cmd.arguments]
          input_redirect_path :=
            match cmd.input_redirect_path with
            | some q => some q
            | none => st.input_redirect_path
          output_redirect_path :=
            match cmd.output_redirect_path with
            | some q => some q
            | none => st.output_redirect_path } = .ok p := by
  unfold parse_loop at h
  cases hg : get_arguments getenv c with
  | error d => rw [hg] at h; cases h
  | ok cmd =>
    rw [hg] at h
    simp only at h
    refine ⟨cmd, rfl, ?_⟩
    split_ifs at h with a b c
    exact ⟨a, b, c, h⟩

theorem parse_loop_ok_stage (getenv : CStr → Option CStr) (n : Nat) (cs : List CStr) :
    ∀ (i : Nat) (st p : Parsed), parse_loop getenv n cs i st = .ok p → 1 < n →
      ∀ (j : Nat) (stage : CStr), cs[j]? = some stage →
        (i + j ≠ 0 → carries_input stage = false) ∧
        (i + j ≠ n - 1 → carries_output stage = false) := by
  induction cs with
  | nil => intro i st p _ _ j stage hj; simp at hj
  | cons c cs ih =>
    intro i st p h hn j stage hj
    obtain ⟨cmd, hg, a, b, c3, hrest⟩ := parse_loop_cons_ok getenv n c cs i st p h
    cases j with
    | zero =>
      simp only [List.getElem?_cons_zero, Option.some.injEq] at hj
      subst hj
      rw [carries_input_iff getenv c cmd hg, carries_output_iff getenv c cmd hg]
      simp only [add_zero]
      constructor
      · intro hi
        by_contra hc
        by_cases hl : i = n - 1
        · exact b ⟨hn, hl, hc⟩
        · exact c3 ⟨hn, ⟨hi, hl⟩, Or.inl hc⟩
      · intro hl
        by_contra hc
        by_cases hi : i = 0
        · exact a ⟨hn, hi, hc⟩
        · exact c3 ⟨hn, ⟨hi, hl⟩, Or.inr hc⟩
    | succ j =>
      simp only [List.getElem?_cons_succ] at hj
      have := ih (i + 1) _ p hrest hn j stage hj
      have e : i + 1 + j = i + (j + 1) := by omega
      rwa [e] at this

theorem my_system_parse_error (k : Kernel) (line : CStr) (d : Diag)
    (h : parse_line k.getenv line = .error d) :
    my_system k line = ⟨[.diag d], .returned 1⟩ := by
  unfold my_system
  rw [h]

theorem parse_line_single (getenv : CStr → Option CStr) (line stage : CStr) (p : Parsed)
    (hs : split_commands line = [stage]) (hp : parse_line getenv line = .ok p) :
    ∃ cmd, get_arguments getenv stage = .ok cmd ∧
      p = ⟨[cmd.arguments], cmd.input_redirect_path, cmd.output_redirect_path⟩ := by
  unfold parse_line at hp
  rw [hs] at hp
  obtain ⟨cmd, hg, _, _, _, hrest⟩ := parse_loop_cons_ok getenv _ stage [] 0 _ p hp
  refine ⟨cmd, hg, ?_⟩
  unfold parse_loop at hrest
  have := (Except.ok.inj hrest).symm
  rw [this]
  cases cmd.input_redirect_path <;> cases cmd.output_redirect_path <;> rfl

theorem my_system_cd_pipeline (k : Kernel) (line : CStr) (p : Parsed)
    (hp : parse_line k.getenv line = .ok p) (hN : 1 < p.line.length)
    (hcd : ∃ (i : Nat) (argv : Argv), p.line[i]? = some argv ∧ is_cd argv = true) :
    my_system k line = ⟨[.diag .cd_not_alone], .returned 1⟩ := by
  unfold my_system
  rw [hp]
  obtain ⟨i, argv, hi, hc⟩ := hcd
  have hany : p.line.any is_cd = true := by
    rw [List.any_eq_true]
    exact ⟨argv, List.getElem?_mem hi, hc⟩
  have h1 : ¬ p.line.length = 1 := by omega
  have h2 : p.line.length > 0 := by omega
  simp [h1, h2, hany]

theorem my_system_cd_redirect (k : Kernel) (line : CStr) (p : Parsed)
    (hp : parse_line k.getenv line = .ok p) (hN : p.line.length = 1)
    (hcd : is_cd (p.line.getD 0 []) = true)
    (hr : p.input_redirect_path ≠ none ∨ p.output_redirect_path ≠ none) :
    my_system k line = ⟨[.diag .cd_redirect], .returned 1⟩ := by
  unfold my_system
  rw [hp]
  have : ¬ (p.input_redirect_path = none ∧ p.output_redirect_path = none) := by tauto
  simp only [hN, hcd, and_self, if_true, this, if_false]

theorem create_pipes_trace (k : Kernel) (todo : Nat) :
    ∀ i, ∀ e ∈ (create_pipes k todo i).1, (∃ s, e = .pipe s) ∨ ∃ d, e = .diag d := by
  induction todo with
  | zero => intro i e he; simp [create_pipes] at he
  | succ n ih =>
    intro i e he
    unfold create_pipes at he
    cases hp : k.pipe i with
    | none =>
      rw [hp] at he
      simp at he
      rcases he with rfl | rfl
      · exact Or.inl ⟨i, rfl⟩
      · exact Or.inr ⟨_, rfl⟩
    | some rw =>
      rw [hp] at he
      simp at he
      rcases he with rfl | he
      · exact Or.inl ⟨i, rfl⟩
      · exact ih (i + 1) e he

theorem fork_loop_trace (k : Kernel) (n : Nat) (fuel : Nat) :
    ∀ i r, fork_loop k n fuel i = some r →
      ∀ e ∈ r.1, (∃ s, e = .fork s) ∨ ∃ d, e = .diag d := by
  induction fuel with
  | zero => intro i r h; simp [fork_loop] at h
  | succ f ih =>
    intro i r h e he
    unfold fork_loop at h
    split_ifs at h with h1 h2
    · cases hr : fork_loop k n f (i + 2) with
      | none => rw [hr] at h; simp at h
      | some r1 =>
        rw [hr] at h
        simp at h
        subst h
        simp at he
        rcases he with rfl | he
        · exact Or.inl ⟨i, rfl⟩
        · exact ih (i + 2) r1 hr e he
    · simp at h
      subst h
      simp at he
      rcases he with rfl | rfl
      · exact Or.inl ⟨i, rfl⟩
      · exact Or.inr ⟨_, rfl⟩
    · simp at h
      subst h
      simp at he

theorem close_pipes_trace (fds : List Int) (todo : Nat) :
    ∀ j, ∀ e ∈ close_pipes fds todo j, ∃ fd, e = .close fd := by
  induction todo with
  | zero => intro j e he; simp [close_pipes] at he
  | succ n ih =>
    intro j e he
    unfold close_pipes at he
    simp at he
    rcases he with rfl | he
    · exact ⟨_, rfl⟩
    · exact ih (j + 1) e he

theorem wait_loop_trace (k : Kernel) (todo : Nat) :
    ∀ i es, ∀ e ∈ (wait_loop k todo i es).trace, e = .wait ∨ ∃ d, e = .diag d := by
  induction todo with
  | zero => intro i es e he; simp [wait_loop] at he
  | succ n ih =>
    intro i es e he
    unfold wait_loop at he
    cases hw : k.wait i with
    | none =>
      rw [hw] at he
      simp at he
      rcases he with rfl | rfl
      · exact Or.inl rfl
      · exact Or.inr ⟨_, rfl⟩
    | some s =>
      rw [hw] at he
      cases s with
      | exited c =>
        simp [Run.after] at he
        rcases he with rfl | he
        · exact Or.inl rfl
        · exact ih _ _ e he
      | signaled sg =>
        simp only at he
        split_ifs at he
        · simp [Run.after] at he
          rcases he with rfl | rfl | he
          · exact Or.inl rfl
          · exact Or.inr ⟨_, rfl⟩
          · exact ih _ _ e he
        · simp [Run.after] at he
          rcases he with rfl | he
          · exact Or.inl rfl
          · exact ih _ _ e he
      | other =>
        simp [Run.after] at he
        rcases he with rfl | rfl | he
        · exact Or.inl rfl
        · exact Or.inr ⟨_, rfl⟩
        · exact ih _ _ e he

theorem exec_trace_no_change_dir (k : Kernel) (command : List Argv) (n : Nat)
    (inp out : Option CStr) (a : Argv) :
    Ev.call_change_dir a ∉ (exec k command n inp out).trace := by
  intro hmem
  unfold exec at hmem
  have hp := create_pipes_trace k (n - 1) 0
  rcases hc : create_pipes k (n - 1) 0 with ⟨t, _ | fds⟩
  · rw [hc] at hmem hp
    simp only at hmem
    rcases hp _ hmem with ⟨s, h⟩ | ⟨d, h⟩ <;> cases h
  · rw [hc] at hmem hp
    simp only at hmem
    cases hf : fork_loop k n (n + 1) 0 with
    | none =>
      rw [hf] at hmem
      simp only at hmem
      rcases hp _ hmem with ⟨s, h⟩ | ⟨d, h⟩ <;> cases h
    | some r =>
      have hft := fork_loop_trace k n (n + 1) 0 r hf
      rw [hf] at hmem
      obtain ⟨tf, b⟩ := r
      cases b with
      | false =>
        simp only [List.mem_append] at hmem
        rcases hmem with h | h
        · rcases hp _ h with ⟨s, h⟩ | ⟨d, h⟩ <;> cases h
        · rcases hft _ h with ⟨s, h⟩ | ⟨d, h⟩ <;> cases h
      | true =>
        simp only [Run.after, List.mem_append] at hmem
        rcases hmem with ((h | h) | h) | h
        · rcases hp _ h with ⟨s, h⟩ | ⟨d, h⟩ <;> cases h
        · rcases hft _ h with ⟨s, h⟩ | ⟨d, h⟩ <;> cases h
        · obtain ⟨fd, h⟩ := close_pipes_trace _ _ _ _ h
          cases h
        · rcases wait_loop_trace k n 0 0 _ h with h | ⟨d, h⟩ <;> cases h

theorem change_dir_trace (k : Kernel) (argv a : Argv) :
    Ev.call_change_dir a ∉ (change_dir k argv).trace := by
  unfold change_dir
  split
  · simp
  · split_ifs <;> simp
  · split
    · simp
    · split_ifs <;> simp

theorem my_system_change_dir_only (k : Kernel) (line : CStr) (a : Argv)
    (h : Ev.call_change_dir a ∈ (my_system k line).trace) :
    ∃ p, parse_line k.getenv line = .ok p ∧ p.line = [a] ∧ is_cd a = true ∧
      p.input_redirect_path = none ∧ p.output_redirect_path = none := by
  unfold my_system at h
  cases hp : parse_line k.getenv line with
  | error d => rw [hp] at h; simp at h
  | ok p =>
    rw [hp] at h
    simp only at h
    refine ⟨p, rfl, ?_⟩
    split_ifs at h with h1 h2 h3 h4
    · simp only [Run.after, List.singleton_append, List.mem_cons, Ev.call_change_dir.injEq] at h
      rcases h with h | h
      · obtain ⟨hl, hcd⟩ := h1
        have : p.line = [p.line.getD 0 []] := by
          match hpl : p.line, hl with
          | [x], _ => simp
        rw [← h] at this hcd
        exact ⟨this, hcd, h2.1, h2.2⟩
      · exact absurd h (change_dir_trace k _ a)
    · simp at h
    · simp at h
    · simp only [Run.after, List.singleton_append, List.mem_cons, reduceCtorEq, false_or] at h
      exact absurd h (exec_trace_no_change_dir k _ _ _ _ a)
    · simp at h

theorem strtok_r_rest_length (delim : Char) (str tok rest : CStr)
    (h : strtok_r delim str = some (tok, rest)) : rest.length < str.length := by
  unfold strtok_r at h
  have hle := (List.dropWhile_sublist (l := str) (fun c => c == delim)).length_le
  cases hd : str.dropWhile (fun c => c == delim) with
  | nil => rw [hd] at h; cases h
  | cons c cs =>
    rw [hd] at h hle
    simp only [Option.some.injEq, Prod.mk.injEq] at h
    rw [← h.2]
    have h2 := (List.dropWhile_sublist (l := c :: cs) (fun x => x != delim)).length_le
    simp only [List.length_tail, List.length_cons] at h2 hle ⊢
    omega

theorem strtok_loop_fuel (delim : Char) :
    ∀ (f1 f2 : Nat) (str : CStr), str.length < f1 → str.length < f2 →
      strtok_loop delim f1 str = strtok_loop delim f2 str := by
  intro f1
  induction f1 with
  | zero => intro f2 str h; omega
  | succ n ih =>
    intro f2 str h1 h2
    cases f2 with
    | zero => omega
    | succ m =>
      unfold strtok_loop
      cases hs : strtok_r delim str with
      | none => rfl
      | some r =>
        obtain ⟨tok, rest⟩ := r
        have := strtok_r_rest_length delim str tok rest hs
        simp only
        rw [ih m rest (by omega) (by omega)]

theorem create_pipes_ok (k : Kernel) (hp : ∀ i, k.pipe i ≠ none) (todo : Nat) :
    ∀ i, ∃ fds, (create_pipes k todo i).2 = some fds ∧ fds.length = 2 * todo := by
  induction todo with
  | zero => intro i; exact ⟨[], rfl, rfl⟩
  | succ n ih =>
    intro i
    unfold create_pipes
    cases h : k.pipe i with
    | none => exact absurd h (hp i)
    | some rw =>
      obtain ⟨fds, h1, h2⟩ := ih (i + 1)
      obtain ⟨r, w⟩ := rw
      refine ⟨r :: w :: fds, ?_, ?_⟩
      · simp only [h1, Option.map_some']
      · simp only [List.length_cons, h2]; omega

theorem fork_loop_ok (k : Kernel) (hf : ∀ i, k.fork i = true) (n : Nat) (fuel : Nat) :
    ∀ i, (n * 2 + 1 - i) / 2 < fuel → ∃ t, fork_loop k n fuel i = some (t, true) := by
  induction fuel with
  | zero => intro i h; omega
  | succ f ih =>
    intro i h
    unfold fork_loop
    by_cases hi : i < n * 2
    · obtain ⟨t, ht⟩ := ih (i + 2) (by omega)
      simp only [hi, if_true, hf i, ht, Option.map_some']
      exact ⟨_, rfl⟩
    · simp only [hi, if_false]
      exact ⟨_, rfl⟩

theorem fork_loop_fuel_enough (k : Kernel) (n : Nat) (fuel : Nat) :
    ∀ i, (n * 2 + 1 - i) / 2 < fuel → fork_loop k n fuel i ≠ none := by
  induction fuel with
  | zero => intro i h; omega
  | succ f ih =>
    intro i h
    unfold fork_loop
    by_cases hi : i < n * 2
    · have := ih (i + 2) (by omega)
      cases hk : k.fork i
      · simp [hi]
      · cases hr : fork_loop k n f (i + 2) with
        | none => exact absurd hr this
        | some r => simp [hi]
    · simp [hi]

theorem last_normal_exit_cons_exited (code : Nat) (statuses : List WaitStatus) :
    last_normal_exit (.exited code :: statuses) =
      some ((last_normal_exit statuses).getD code) := by
  unfold last_normal_exit
  simp only [List.filterMap_cons]
  rw [List.getLast?_cons]

theorem last_normal_exit_cons_other (s : WaitStatus) (statuses : List WaitStatus)
    (h : ∀ code, s ≠ .exited code) :
    last_normal_exit (s :: statuses) = last_normal_exit statuses := by
  unfold last_normal_exit
  cases s with
  | exited c => exact absurd rfl (h c)
  | signaled sg => simp
  | other => simp

theorem wait_loop_fin (k : Kernel) (statuses : List WaitStatus) :
    ∀ (i : Nat) (exit_status : Int),
      (∀ j, j < statuses.length → k.wait (i + j) = statuses[j]?) →
      (wait_loop k statuses.length i exit_status).fin =
        .returned (match last_normal_exit statuses with
          | some code => (code : Int)
          | none => exit_status) := by
  induction statuses with
  | nil => intro i es _; rfl
  | cons s rest ih =>
    intro i es hw
    have h0 : k.wait i = some s := by simpa using hw 0 (by simp)
    have hrest : ∀ j, j < rest.length → k.wait (i + 1 + j) = rest[j]? := by
      intro j hj
      have := hw (j + 1) (by simpa using hj)
      simp only [List.getElem?_cons_succ] at this
      rw [← this]
      congr 1
      omega
    simp only [List.length_cons]
    unfold wait_loop
    rw [h0]
    cases s with
    | exited c =>
      simp only [Run.after]
      rw [ih (i + 1) c hrest, last_normal_exit_cons_exited]
      cases last_normal_exit rest <;> rfl
    | signaled sg =>
      rw [last_normal_exit_cons_other _ _ (by intro c; simp)]
      simp only
      split_ifs <;> simp only [Run.after] <;> rw [ih (i + 1) es hrest]
    | other =>
      rw [last_normal_exit_cons_other _ _ (by intro c; simp)]
      simp only [Run.after]
      rw [ih (i + 1) es hrest]

theorem exec_fin (k : Kernel) (command : List Argv) (inp out : Option CStr)
    (statuses : List WaitStatus)
    (hp : ∀ i, k.pipe i ≠ none) (hf : ∀ i, k.fork i = true)
    (hw : ∀ j, j < statuses.length → k.wait j = statuses[j]?) :
    (exec k command statuses.length inp out).fin =
      .returned (match last_normal_exit statuses with
        | some code => (code : Int)
        | none => 0) := by
  unfold exec
  obtain ⟨fds, h1, _⟩ := create_pipes_ok k hp (statuses.length - 1) 0
  obtain ⟨tf, h2⟩ := fork_loop_ok k hf statuses.length (statuses.length + 1) 0 (by omega)
  rcases hc : create_pipes k (statuses.length - 1) 0 with ⟨t, o⟩
  rw [hc] at h1
  simp only at h1
  subst h1
  simp only [h2, Run.after]
  exact wait_loop_fin k statuses 0 0 (by simpa using hw)

theorem redirect_unique_eq {l : List CStr} {a b : Option CStr}
    (ha : (l = [] ∧ a = none) ∨ ∃ t, l = [t] ∧ a = some t.tail)
    (hb : (l = [] ∧ b = none) ∨ ∃ t, l = [t] ∧ b = some t.tail) : a = b := by
  rcases ha with ⟨e1, rfl⟩ | ⟨t, e1, rfl⟩ <;> rcases hb with ⟨e2, rfl⟩ | ⟨u, e2, rfl⟩
  · rfl
  · rw [e1] at e2; cases e2
  · rw [e1] at e2; cases e2
  · rw [e1] at e2
    have := (List.cons.inj e2).1
    rw [this]

theorem dollar_not_redirect (name : CStr) : is_redirect ('$' :: name) = false := by
  simp [is_redirect, starts]

theorem get_arguments_dollar_as_literal (getenv : CStr → Option CStr)
    (pre post : List CStr) (name v lit : CStr) (cmd : Command)
    (hset : getenv name = some v)
    (hok : get_arguments_tokens getenv (pre ++ ('$' :: name) :: post) = .ok cmd)
    (hl : is_redirect lit = false) (hd : starts '$' lit = false) :
    ∃ cmd2, get_arguments_tokens getenv (pre ++ lit :: post) = .ok cmd2 ∧
      cmd.arguments =
        cmd2.arguments.set (pre.filter (fun t => !is_redirect t)).length (some v) ∧
      cmd2.arguments.length = cmd.arguments.length ∧
      cmd.input_redirect_path = cmd2.input_redirect_path ∧
      cmd.output_redirect_path = cmd2.output_redirect_path := by
  have hdr := dollar_not_redirect name
  have hl1 : starts '>' lit = false := by
    simp only [is_redirect, Bool.or_eq_false_iff] at hl; exact hl.1
  have hl2 : starts '<' lit = false := by
    simp only [is_redirect, Bool.or_eq_false_iff] at hl; exact hl.2
  have hn1 : starts '>' ('$' :: name) = false := by simp [starts]
  have hn2 : starts '<' ('$' :: name) = false := by simp [starts]
  have hnf : ¬ ∃ d, get_arguments_tokens getenv (pre ++ ('$' :: name) :: post) = .error d := by
    rintro ⟨d, h⟩; rw [h] at hok; cases hok
  rw [get_arguments_tokens_fail_iff] at hnf
  cases h2 : get_arguments_tokens getenv (pre ++ lit :: post) with
  | error d =>
    exfalso
    apply hnf
    rcases (get_arguments_tokens_fail_iff getenv _).1 ⟨d, h2⟩ with a | b | c | e
    · left
      obtain ⟨t, ht, hx⟩ := a
      simp only [List.mem_append, List.mem_cons] at ht
      rcases ht with ht | rfl | ht
      · exact ⟨t, by simp [ht], hx⟩
      · rcases hx with rfl | rfl
        · simp [starts] at hl1
        · simp [starts] at hl2
      · exact ⟨t, by simp [ht], hx⟩
    · right; left
      simpa [List.filter_append, List.filter_cons, hl1, hl2, hn1, hn2] using b
    · right; right; left
      obtain ⟨t, ht, hx⟩ := c
      simp only [List.mem_append, List.mem_cons] at ht
      rcases ht with ht | rfl | ht
      · exact ⟨t, by simp [ht], hx⟩
      · rw [hd] at hx; exact absurd hx.1 (by simp)
      · exact ⟨t, by simp [ht], hx⟩
    · exfalso
      have := e lit (by simp)
      rw [hl] at this
      cases this
  | ok cmd2 =>
    obtain ⟨a1, _, _, _, o1, i1⟩ := get_arguments_tokens_ok getenv _ cmd hok
    obtain ⟨a2, _, _, _, o2, i2⟩ := get_arguments_tokens_ok getenv _ cmd2 h2
    have e1 : resolve getenv ('$' :: name) = some v := by simp [resolve, starts, hset]
    have e2 : resolve getenv lit = some lit := by simp [resolve, hd]
    simp only [List.filter_append, List.filter_cons, hl, hdr, hl1, hl2, hn1, hn2,
      Bool.not_false, if_true, List.map_append, List.map_cons, e1, e2,
      Bool.false_eq_true, if_false] at a1 a2 o1 o2 i1 i2
    refine ⟨cmd2, rfl, ?_, ?_, redirect_unique_eq i1 i2, redirect_unique_eq o1 o2⟩
    · rw [a1, a2, List.append_assoc, List.append_assoc, List.set_append_right _ _ (by simp)]
      simp
    · rw [a1, a2]
      simp

theorem strtok_r_none_iff (delim : Char) (str : CStr) :
    strtok_r delim str = none ↔ ∀ c ∈ str, c = delim := by
  unfold strtok_r
  cases h : str.dropWhile (fun c => c == delim) with
  | nil =>
    simp only [true_iff]
    have := List.dropWhile_eq_nil_iff.1 h
    intro c hc
    simpa using this c hc
  | cons a as =>
    simp only [reduceCtorEq, false_iff]
    intro hall
    have : str.dropWhile (fun c => c == delim) = [] :=
      List.dropWhile_eq_nil_iff.2 (fun c hc => by simpa using hall c hc)
    rw [this] at h
    cases h

theorem tokens_eq_nil_iff (delim : Char) (str : CStr) :
    tokens delim str = [] ↔ ∀ c ∈ str, c = delim := by
  unfold tokens strtok_loop
  rw [← strtok_r_none_iff]
  cases h : strtok_r delim str with
  | none => simp
  | some r => simp

theorem empty_pipe_of_all_pipes (line : CStr) (hne : line ≠ [])
    (hall : ∀ c ∈ line, c = '|') : empty_pipe line = true := by
  cases line with
  | nil => exact absurd rfl hne
  | cons c cs =>
    have hc : c = '|' := hall c (by simp)
    subst hc
    unfold empty_pipe
    have : check_spaces cs '|' = true := by
      cases cs with
      | nil => rfl
      | cons d ds =>
        have hd : d = '|' := hall d (by simp)
        subst hd
        simp [check_spaces]
    simp [this]

theorem split_commands_ne_nil (line : CStr) (h1 : check_spaces line '\x00' = false)
    (h2 : empty_pipe line = false) : split_commands line ≠ [] := by
  intro h
  have hall := (tokens_eq_nil_iff '|' line).1 h
  by_cases hne : line = []
  · subst hne
    simp [check_spaces] at h1
  · rw [empty_pipe_of_all_pipes line hne hall] at h2
    cases h2

theorem get_arguments_tokens_argv (getenv : CStr → Option CStr) (toks : List CStr)
    (cmd : Command) (h : get_arguments_tokens getenv toks = .ok cmd) :
    ∃ (name : CStr) (args : List CStr), cmd.arguments = some name :: (args.map some ++ [none]) := by
  unfold get_arguments_tokens at h
  cases hl : get_arguments_loop getenv toks ⟨[], none, none⟩ with
  | error d => rw [hl] at h; cases h
  | ok st =>
    rw [hl] at h
    simp only at h
    split_ifs at h with hz
    have := Except.ok.inj h
    subst this
    cases ha : st.args with
    | nil => rw [ha] at hz; simp at hz
    | cons a as => exact ⟨a, as, by simp⟩

theorem parse_loop_line (getenv : CStr → Option CStr) (n : Nat) (cs : List CStr) :
    ∀ (i : Nat) (st p : Parsed), parse_loop getenv n cs i st = .ok p →
      p.line.length = st.line.length + cs.length ∧
      ∀ argv ∈ p.line, argv ∈ st.line ∨
        ∃ c ∈ cs, ∃ cmd, get_arguments getenv c = .ok cmd ∧ cmd.arguments = argv := by
  induction cs with
  | nil =>
    intro i st p h
    unfold parse_loop at h
    have := Except.ok.inj h
    subst this
    exact ⟨by simp, fun argv ha => Or.inl ha⟩
  | cons c cs ih =>
    intro i st p h
    obtain ⟨cmd, hg, _, _, _, hrest⟩ := parse_loop_cons_ok getenv n c cs i st p h
    obtain ⟨hl, hm⟩ := ih (i + 1) _ p hrest
    refine ⟨by simp only [List.length_append, List.length_singleton] at hl; simp only [List.length_cons]; omega, ?_⟩
    intro argv ha
    rcases hm argv ha with h1 | ⟨c2, hc2, cmd2, hg2, he⟩
    · simp only [List.mem_append, List.mem_singleton] at h1
      rcases h1 with h1 | h1
      · exact Or.inl h1
      · exact Or.inr ⟨c, by simp, cmd, hg, h1.symm⟩
    · exact Or.inr ⟨c2, by simp [hc2], cmd2, hg2, he⟩

theorem check_spaces_of_spaces (line : CStr) (e : Char) (h : ∀ c ∈ line, c = ' ') :
    check_spaces line e = true := by
  induction line with
  | nil => rfl
  | cons c cs ih =>
    have hc : c = ' ' := h c (by simp)
    subst hc
    unfold check_spaces
    have := ih (fun x hx => h x (by simp [hx]))
    simp [this]

theorem splitOn_cons_delim (delim : Char) (str : CStr) :
    (delim :: str).splitOn delim = [] :: str.splitOn delim := by
  simp [List.splitOn, List.splitOnP_cons]

theorem nonempty_segments_dropWhile (delim : Char) (str : CStr) :
    nonempty_segments delim str =
      nonempty_segments delim (str.dropWhile (fun c => c == delim)) := by
  induction str with
  | nil => rfl
  | cons c cs ih =>
    by_cases h : c = delim
    · subst h
      rw [List.dropWhile_cons_of_pos (by simp), ← ih]
      unfold nonempty_segments
      rw [splitOn_cons_delim]
      simp
    · rw [List.dropWhile_cons_of_neg (by simpa using h)]

theorem head_dropWhile_ne (delim : Char) (l : CStr) (a : Char) (as : CStr)
    (h : l.dropWhile (fun x => x != delim) = a :: as) : a = delim := by
  have hne : l.dropWhile (fun x => x != delim) ≠ [] := by rw [h]; simp
  have := List.head_dropWhile_not (fun x => x != delim) l hne
  simp only [h, List.head_cons] at this
  simpa using this

theorem nonempty_segments_token (delim : Char) (c : Char) (cs : CStr) (hc : c ≠ delim) :
    nonempty_segments delim (c :: cs) =
      (c :: cs).takeWhile (fun x => x != delim) ::
        nonempty_segments delim ((c :: cs).dropWhile (fun x => x != delim)).tail := by
  have hsplit := List.takeWhile_append_dropWhile (fun x => x != delim) (c :: cs)
  have htok : ∀ x ∈ (c :: cs).takeWhile (fun x => x != delim), ¬ (x == delim) = true := by
    intro x hx
    have := List.mem_takeWhile_imp hx
    simpa using this
  have hne : ((c :: cs).takeWhile (fun x => x != delim)).isEmpty = false := by
    rw [List.takeWhile_cons_of_pos (by simpa using hc)]
    rfl
  cases hd : (c :: cs).dropWhile (fun x => x != delim) with
  | nil =>
    rw [hd, List.append_nil] at hsplit
    rw [hsplit] at htok hne ⊢
    unfold nonempty_segments
    rw [List.splitOn, List.splitOnP_eq_single _ _ htok]
    simp [hne, List.splitOn]
  | cons a as =>
    have ha := head_dropWhile_ne delim _ a as hd
    subst ha
    rw [hd] at hsplit
    unfold nonempty_segments
    conv_lhs => rw [← hsplit, List.splitOn, List.splitOnP_first _ _ htok a (by simp)]
    simp [hne, List.splitOn]

theorem strtok_loop_eq_segments (delim : Char) :
    ∀ (fuel : Nat) (str : CStr), str.length < fuel →
      strtok_loop delim fuel str = nonempty_segments delim str := by
  intro fuel
  induction fuel with
  | zero => intro str h; omega
  | succ n ih =>
    intro str h
    unfold strtok_loop
    cases hs : strtok_r delim str with
    | none =>
      have hall := (strtok_r_none_iff delim str).1 hs
      have hd : str.dropWhile (fun c => c == delim) = [] :=
        List.dropWhile_eq_nil_iff.2 (fun c hc => by simpa using hall c hc)
      rw [nonempty_segments_dropWhile, hd]
      rfl
    | some r =>
      obtain ⟨tok, rest⟩ := r
      have hlen := strtok_r_rest_length delim str tok rest hs
      simp only
      rw [ih rest (by omega), nonempty_segments_dropWhile delim str]
      unfold strtok_r at hs
      cases hd : str.dropWhile (fun c => c == delim) with
      | nil => rw [hd] at hs; cases hs
      | cons c cs =>
        rw [hd] at hs
        simp only [Option.some.injEq, Prod.mk.injEq] at hs
        have hc : c ≠ delim := by
          have hne : str.dropWhile (fun c => c == delim) ≠ [] := by rw [hd]; simp
          have := List.head_dropWhile_not (fun c => c == delim) str hne
          simp only [hd, List.head_cons] at this
          simpa using this
        rw [nonempty_segments_token delim c cs hc, hs.1, hs.2]

theorem tokens_eq_segments (delim : Char) (str : CStr) :
    tokens delim str = nonempty_segments delim str :=
  strtok_loop_eq_segments delim (str.length + 1) str (by omega)

theorem splitOnP_no_sep (p : Char → Bool) (str : CStr) :
    ∀ seg ∈ str.splitOnP p, ∀ x ∈ seg, p x = false := by
  induction str with
  | nil => intro seg hs x hx; simp at hs; subst hs; simp at hx
  | cons c cs ih =>
    intro seg hs x hx
    rw [List.splitOnP_cons] at hs
    by_cases hc : p c = true
    · simp only [hc, if_true, List.mem_cons] at hs
      rcases hs with rfl | hs
      · simp at hx
      · exact ih seg hs x hx
    · simp only [hc, if_false] at hs
      cases hl : cs.splitOnP p with
      | nil => exact absurd hl (List.splitOnP_ne_nil p cs)
      | cons h t =>
        rw [hl] at hs ih
        simp only [Bool.false_eq_true, if_false] at hs
        have hm : List.modifyHead (List.cons c) (h :: t) = (c :: h) :: t := rfl
        rw [hm, List.mem_cons] at hs
        rcases hs with hs | hs
        · rw [hs] at hx
          simp only [List.mem_cons] at hx
          rcases hx with hx | hx
          · rw [hx]; simpa using hc
          · exact ih h (by simp) x hx
        · exact ih seg (by simp [hs]) x hx

theorem splitOn_length (delim : Char) (str : CStr) :
    (str.splitOn delim).length = str.count delim + 1 := by
  induction str with
  | nil => simp [List.splitOn]
  | cons c cs ih =>
    unfold List.splitOn at ih ⊢
    rw [List.splitOnP_cons]
    by_cases hc : c = delim
    · subst hc
      simp [ih]
    · have h1 : (c == delim) = false := by simpa using hc
      simp only [h1, Bool.false_eq_true, if_false, List.length_modifyHead, ih]
      rw [List.count_cons_of_ne (by exact fun h => hc h.symm)]

theorem tokens_mem (delim : Char) (str tok : CStr) (h : tok ∈ tokens delim str) :
    tok ≠ [] ∧ delim ∉ tok := by
  rw [tokens_eq_segments] at h
  unfold nonempty_segments at h
  obtain ⟨h1, h2⟩ := List.mem_filter.1 h
  constructor
  · intro he; subst he; simp at h2
  · intro hm
    have := splitOnP_no_sep (fun x => x == delim) str tok h1 delim hm
    simp at this

theorem filter_nonempty_eq_self (l : List CStr) (h : ∀ seg ∈ l, seg ≠ []) :
    l.filter (fun seg => !seg.isEmpty) = l := by
  rw [List.filter_eq_self]
  intro seg hs
  have := h seg hs
  cases seg with
  | nil => exact absurd rfl this
  | cons a as => rfl

theorem child_stdin_open (k : Kernel) (inp : Option CStr) (fds : List Int) (i : Nat)
    (path : CStr) (flags : Nat) (mode : Option Nat)
    (h : Ev.sys_open path flags mode ∈ (child_stdin k inp fds i).trace) :
    i = 0 ∧ inp = some path ∧ flags = O_RDONLY ∧ mode = none := by
  unfold child_stdin at h
  by_cases hi : i = 0
  · subst hi
    simp only [ne_eq, not_true_eq_false, if_false] at h
    cases inp with
    | none => simp at h
    | some p =>
      simp only at h
      cases ho : k.sys_open p O_RDONLY with
      | none =>
        rw [ho] at h
        simp at h
        obtain ⟨rfl, rfl, rfl⟩ := h
        exact ⟨rfl, rfl, rfl, rfl⟩
      | some fd =>
        rw [ho] at h
        simp only at h
        split_ifs at h <;> simp at h <;> (obtain ⟨rfl, rfl, rfl⟩ := h; exact ⟨rfl, rfl, rfl, rfl⟩)
  · simp only [ne_eq, hi, not_false_eq_true, if_true] at h
    split_ifs at h <;> simp at h

theorem child_stdout_open (k : Kernel) (n : Nat) (out : Option CStr) (fds : List Int)
    (i : Nat) (path : CStr) (flags : Nat) (mode : Option Nat)
    (h : Ev.sys_open path flags mode ∈ (child_stdout k n out fds i).trace) :
    ¬ i / 2 < n - 1 ∧ out = some path ∧ flags = output_flags ∧ mode = some output_mode := by
  unfold child_stdout at h
  by_cases hi : i / 2 < n - 1
  · simp only [hi, if_true] at h
    split_ifs at h <;> simp at h
  · simp only [hi, if_false] at h
    cases out with
    | none => simp at h
    | some p =>
      simp only at h
      cases ho : k.sys_open p output_flags with
      | none =>
        rw [ho] at h
        simp at h
        obtain ⟨rfl, rfl, rfl⟩ := h
        exact ⟨hi, rfl, rfl, rfl⟩
      | some fd =>
        rw [ho] at h
        simp only at h
        split_ifs at h <;> simp at h <;> (obtain ⟨rfl, rfl, rfl⟩ := h; exact ⟨hi, rfl, rfl, rfl⟩)

theorem andThen_trace_mem (s : Step) (r : Run) (e : Ev) (h : e ∈ (s.andThen r).trace) :
    e ∈ s.trace ∨ e ∈ r.trace := by
  unfold Step.andThen at h
  cases hs : s.stop with
  | some o => rw [hs] at h; exact Or.inl h
  | none => rw [hs] at h; exact List.mem_append.1 h

theorem exec_child_open (k : Kernel) (command : List Argv) (n : Nat)
    (inp out : Option CStr) (fds : List Int) (i : Nat)
    (path : CStr) (flags : Nat) (mode : Option Nat)
    (h : Ev.sys_open path flags mode ∈ (exec_child k command n inp out fds i).trace) :
    (i = 0 ∧ inp = some path ∧ flags = O_RDONLY ∧ mode = none) ∨
    (¬ i / 2 < n - 1 ∧ out = some path ∧ flags = output_flags ∧ mode = some output_mode) := by
  unfold exec_child at h
  rcases andThen_trace_mem _ _ _ h with h1 | h1
  · exact Or.inl (child_stdin_open k inp fds i path flags mode h1)
  · rcases andThen_trace_mem _ _ _ h1 with h2 | h2
    · exact Or.inr (child_stdout_open k n out fds i path flags mode h2)
    · exfalso
      simp only [Run.after, List.mem_append] at h2
      rcases h2 with h3 | h3
      · obtain ⟨fd, hfd⟩ := close_pipes_trace _ _ _ _ h3
        cases hfd
      · unfold child_execvp at h3
        simp only at h3
        split_ifs at h3 <;> simp at h3

theorem exec_trace_events (k : Kernel) (command : List Argv) (n : Nat)
    (inp out : Option CStr) :
    ∀ e ∈ (exec k command n inp out).trace,
      (∃ s, e = .pipe s) ∨ (∃ s, e = .fork s) ∨ (∃ fd, e = .close fd) ∨ e = .wait ∨
        ∃ d, e = .diag d := by
  intro e hmem
  unfold exec at hmem
  have hp := create_pipes_trace k (n - 1) 0
  have pipes : ∀ e ∈ (create_pipes k (n - 1) 0).1,
      (∃ s, e = .pipe s) ∨ (∃ s, e = .fork s) ∨ (∃ fd, e = .close fd) ∨ e = .wait ∨
        ∃ d, e = .diag d := by
    intro e he
    rcases hp e he with h | h
    · exact Or.inl h
    · exact Or.inr (Or.inr (Or.inr (Or.inr h)))
  rcases hc : create_pipes k (n - 1) 0 with ⟨t, _ | fds⟩
  · rw [hc] at hmem pipes
    exact pipes e hmem
  · rw [hc] at hmem pipes
    simp only at hmem
    cases hf : fork_loop k n (n + 1) 0 with
    | none =>
      rw [hf] at hmem
      exact pipes e hmem
    | some r =>
      have hft := fork_loop_trace k n (n + 1) 0 r hf
      have forks : ∀ e ∈ r.1,
          (∃ s, e = .pipe s) ∨ (∃ s, e = .fork s) ∨ (∃ fd, e = .close fd) ∨ e = .wait ∨
            ∃ d, e = .diag d := by
        intro e he
        rcases hft e he with h | h
        · exact Or.inr (Or.inl h)
        · exact Or.inr (Or.inr (Or.inr (Or.inr h)))
      rw [hf] at hmem
      obtain ⟨tf, b⟩ := r
      cases b with
      | false =>
        simp only [List.mem_append] at hmem
        rcases hmem with h | h
        · exact pipes e h
        · exact forks e h
      | true =>
        simp only [Run.after, List.mem_append] at hmem
        rcases hmem with ((h | h) | h) | h
        · exact pipes e h
        · exact forks e h
        · exact Or.inr (Or.inr (Or.inl (close_pipes_trace _ _ _ _ h)))
        · rcases wait_loop_trace k n 0 0 _ h with h | h
          · exact Or.inr (Or.inr (Or.inr (Or.inl h)))
          · exact Or.inr (Or.inr (Or.inr (Or.inr h)))

theorem create_pipes_fds (k : Kernel) (todo : Nat) :
    ∀ (i : Nat) (fds : List Int), (create_pipes k todo i).2 = some fds →
      fds.length = 2 * todo ∧
      ∀ j, j < todo → ∃ r w, k.pipe (i + j) = some (r, w) ∧
        fds[2 * j]? = some r ∧ fds[2 * j + 1]? = some w := by
  induction todo with
  | zero =>
    intro i fds h
    simp only [create_pipes, Option.some.injEq] at h
    subst h
    exact ⟨rfl, fun j hj => absurd hj (by omega)⟩
  | succ n ih =>
    intro i fds h
    unfold create_pipes at h
    cases hp : k.pipe i with
    | none => rw [hp] at h; simp at h
    | some rw =>
      obtain ⟨r, w⟩ := rw
      rw [hp] at h
      simp only at h
      cases hr : (create_pipes k n (i + 1)).2 with
      | none => rw [hr] at h; simp at h
      | some rest =>
        rw [hr] at h
        simp only [Option.map_some', Option.some.injEq] at h
        subst h
        obtain ⟨hl, hj⟩ := ih (i + 1) rest hr
        refine ⟨by simp only [List.length_cons, hl]; omega, ?_⟩
        intro j hjlt
        cases j with
        | zero => exact ⟨r, w, by simpa using hp, by simp, by simp⟩
        | succ j =>
          obtain ⟨r2, w2, h1, h2, h3⟩ := hj j (by omega)
          refine ⟨r2, w2, ?_, ?_, ?_⟩
          · rw [← h1]; congr 1; omega
          · have e : 2 * (j + 1) = 2 * j + 1 + 1 := by omega
            rw [e]
            simpa using h2
          · have e : 2 * (j + 1) + 1 = 2 * j + 1 + 1 + 1 := by omega
            rw [e]
            simpa using h3

theorem create_pipes_trace_ok (k : Kernel) (hp : ∀ i, k.pipe i ≠ none) (todo : Nat) :
    ∀ i, (create_pipes k todo i).1 = (List.range' i todo).map Ev.pipe := by
  induction todo with
  | zero => intro i; rfl
  | succ n ih =>
    intro i
    unfold create_pipes
    cases h : k.pipe i with
    | none => exact absurd h (hp i)
    | some rw =>
      simp only [ih (i + 1), List.range'_succ, List.map_cons]

theorem fork_loop_exact (k : Kernel) (hf : ∀ i, k.fork i = true) (n : Nat) (fuel : Nat) :
    ∀ i, (n * 2 + 1 - i) / 2 < fuel →
      fork_loop k n fuel i =
        some ((List.range' 0 ((n * 2 + 1 - i) / 2)).map (fun j => Ev.fork (i + 2 * j)), true) := by
  induction fuel with
  | zero => intro i h; omega
  | succ f ih =>
    intro i h
    unfold fork_loop
    by_cases hi : i < n * 2
    · have hm : (n * 2 + 1 - i) / 2 = (n * 2 + 1 - (i + 2)) / 2 + 1 := by omega
      simp only [hi, if_true, hf i, ih (i + 2) (by omega), Option.map_some']
      rw [hm, List.range'_succ, List.map_cons]
      simp only [Nat.mul_zero, Nat.add_zero, Option.some.injEq, Prod.mk.injEq, List.cons.injEq,
        true_and, and_true]
      rw [List.range'_eq_map_range, List.range'_eq_map_range]
      simp only [List.map_map]
      apply List.map_congr_left
      intro j _
      simp only [Function.comp]
      congr 1
      omega
    · have hm : (n * 2 + 1 - i) / 2 = 0 := by omega
      simp only [hi, if_false, hm]
      rfl

theorem close_pipes_eq (fds : List Int) (todo : Nat) :
    ∀ j, j + todo = fds.length → close_pipes fds todo j = (fds.drop j).map Ev.close := by
  induction todo with
  | zero =>
    intro j h
    have : fds.length ≤ j := by omega
    simp [close_pipes, List.drop_eq_nil_of_le this]
  | succ n ih =>
    intro j h
    unfold close_pipes
    rw [ih (j + 1) (by omega)]
    have hj : j < fds.length := by omega
    rw [List.drop_eq_getElem_cons hj, List.map_cons]
    simp [List.getD_eq_getElem?_getD, hj]

theorem close_pipes_all (fds : List Int) :
    close_pipes fds fds.length 0 = fds.map Ev.close := by
  rw [close_pipes_eq fds fds.length 0 (by omega)]
  rfl

theorem create_pipes_trace_some (k : Kernel) (todo : Nat) :
    ∀ (i : Nat) (fds : List Int), (create_pipes k todo i).2 = some fds →
      (create_pipes k todo i).1 = (List.range' i todo).map Ev.pipe := by
  induction todo with
  | zero => intro i fds _; rfl
  | succ n ih =>
    intro i fds h
    unfold create_pipes at h ⊢
    cases hp : k.pipe i with
    | none => rw [hp] at h; simp at h
    | some rw =>
      rw [hp] at h
      simp only at h ⊢
      cases hr : (create_pipes k n (i + 1)).2 with
      | none => rw [hr] at h; simp at h
      | some rest => simp only [ih (i + 1) rest hr, List.range'_succ, List.map_cons]

theorem exec_trace_ok (k : Kernel) (command : List Argv) (n : Nat) (inp out : Option CStr)
    (fds : List Int) (hfds : (create_pipes k (n - 1) 0).2 = some fds)
    (hf : ∀ i, k.fork i = true) :
    (exec k command n inp out).trace =
        (List.range (n - 1)).map Ev.pipe ++
        (List.range n).map (fun s => Ev.fork (2 * s)) ++
        fds.map Ev.close ++ (wait_loop k n 0 0).trace ∧
      (exec k command n inp out).fin = (wait_loop k n 0 0).fin := by
  have h2 := (create_pipes_fds k (n - 1) 0 fds hfds).1
  have ht := create_pipes_trace_some k (n - 1) 0 fds hfds
  have hfk := fork_loop_exact k hf n (n + 1) 0 (by omega)
  have hm : (n * 2 + 1 - 0) / 2 = n := by omega
  rw [hm] at hfk
  unfold exec
  rcases hc : create_pipes k (n - 1) 0 with ⟨t, o⟩
  rw [hc] at hfds ht
  simp only at hfds ht
  subst hfds
  simp only [hfk, Run.after]
  have hcl : close_pipes fds (2 * (n - 1)) 0 = fds.map Ev.close := by
    rw [← h2]; exact close_pipes_all fds
  rw [hcl, ht]
  simp [List.range_eq_range']

theorem child_stdin_pipe (k : Kernel) (inp : Option CStr) (fds : List Int) (s : Nat)
    (r : Int) (hs : 0 < s) (hr : fds[2 * (s - 1)]? = some r) :
    child_stdin k inp fds (2 * s) =
      if k.dup2 r STDIN_FILENO then ⟨[.dup2 r STDIN_FILENO], none⟩
      else ⟨[.dup2 r STDIN_FILENO, .diag .dup_in_error], some (.exited EXIT_FAILURE)⟩ := by
  unfold child_stdin
  have h0 : 2 * s ≠ 0 := by omega
  have hi : 2 * s - 2 = 2 * (s - 1) := by omega
  simp only [ne_eq, h0, not_false_eq_true, if_true, hi, List.getD_eq_getElem?_getD, hr,
    Option.getD_some]

theorem child_stdout_pipe (k : Kernel) (n : Nat) (out : Option CStr) (fds : List Int)
    (s : Nat) (w : Int) (hs : s < n - 1) (hw : fds[2 * s + 1]? = some w) :
    child_stdout k n out fds (2 * s) =
      if k.dup2 w STDOUT_FILENO then ⟨[.dup2 w STDOUT_FILENO], none⟩
      else ⟨[.dup2 w STDOUT_FILENO, .diag .dup_out_error], some (.exited EXIT_FAILURE)⟩ := by
  unfold child_stdout
  have h0 : 2 * s / 2 < n - 1 := by omega
  simp only [h0, if_true, List.getD_eq_getElem?_getD, hw, Option.getD_some]

theorem child_stdin_first (k : Kernel) (inp : Option CStr) (fds : List Int) :
    child_stdin k inp fds 0 = child_stdin k inp [] 0 := by
  unfold child_stdin
  simp

theorem child_stdout_last (k : Kernel) (n : Nat) (out : Option CStr) (fds : List Int)
    (i : Nat) (h : ¬ i / 2 < n - 1) :
    child_stdout k n out fds i = child_stdout k n out [] i := by
  unfold child_stdout
  simp [h]

theorem child_stdin_stop (k : Kernel) (inp : Option CStr) (fds : List Int) (i : Nat) :
    (child_stdin k inp fds i).stop ≠ some .replaced := by
  unfold child_stdin
  split_ifs
  · simp
  · simp
  · split
    · simp
    · split
      · simp
      · split_ifs <;> simp

theorem child_stdout_stop (k : Kernel) (n : Nat) (out : Option CStr) (fds : List Int)
    (i : Nat) : (child_stdout k n out fds i).stop ≠ some .replaced := by
  unfold child_stdout
  split_ifs
  · simp
  · simp
  · split
    · simp
    · split
      · simp
      · split_ifs <;> simp

theorem exec_child_replaced (k : Kernel) (command : List Argv) (n : Nat)
    (inp out : Option CStr) (fds : List Int) (i : Nat)
    (h : (exec_child k command n inp out fds i).fin = .replaced) :
    (exec_child k command n inp out fds i).trace =
      (child_stdin k inp fds i).trace ++ (child_stdout k n out fds i).trace ++
      close_pipes fds (2 * (n - 1)) 0 ++
      [.execvp ((command.getD (i / 2) []).getD 0 none) (command.getD (i / 2) [])] := by
  unfold exec_child Step.andThen at h ⊢
  have h1 := child_stdin_stop k inp fds i
  have h2 := child_stdout_stop k n out fds i
  cases hs1 : (child_stdin k inp fds i).stop with
  | some o =>
    rw [hs1] at h h1
    simp only at h
    rw [h] at h1
    exact absurd rfl h1
  | none =>
    rw [hs1] at h
    simp only at h ⊢
    cases hs2 : (child_stdout k n out fds i).stop with
    | some o =>
      rw [hs2] at h h2
      simp only at h
      rw [h] at h2
      exact absurd rfl h2
    | none =>
      rw [hs2] at h
      simp only [Run.after] at h ⊢
      unfold child_execvp at h ⊢
      simp only at h ⊢
      split_ifs at h ⊢ with hx
      simp

theorem wait_loop_ok (k : Kernel) (hw : ∀ i, k.wait i ≠ none) (todo : Nat) :
    ∀ (i : Nat) (es : Int),
      (wait_loop k todo i es).trace.countP Ev.is_wait = todo ∧
      (wait_loop k todo i es).trace.countP Ev.is_pipe = 0 ∧
      (wait_loop k todo i es).trace.filterMap Ev.fork_index = [] ∧
      ∃ status, (wait_loop k todo i es).fin = .returned status := by
  induction todo with
  | zero => intro i es; exact ⟨rfl, rfl, rfl, es, rfl⟩
  | succ n ih =>
    intro i es
    unfold wait_loop
    cases h : k.wait i with
    | none => exact absurd h (hw i)
    | some s =>
      cases s with
      | exited c =>
        obtain ⟨a, b, c2, st, d⟩ := ih (i + 1) c
        simp only [Run.after, List.singleton_append, List.countP_cons, Ev.is_wait, Ev.is_pipe,
          List.filterMap_cons, Ev.fork_index, a, b, c2]
        exact ⟨by simp, by simp, trivial, st, d⟩
      | signaled sg =>
        obtain ⟨a, b, c2, st, d⟩ := ih (i + 1) es
        simp only
        split_ifs
        · simp only [Run.after, List.cons_append, List.nil_append, List.countP_cons, Ev.is_wait,
            Ev.is_pipe, List.filterMap_cons, Ev.fork_index, a, b, c2]
          exact ⟨by simp, by simp, trivial, st, d⟩
        · simp only [Run.after, List.singleton_append, List.countP_cons, Ev.is_wait, Ev.is_pipe,
            List.filterMap_cons, Ev.fork_index, a, b, c2]
          exact ⟨by simp, by simp, trivial, st, d⟩
      | other =>
        obtain ⟨a, b, c2, st, d⟩ := ih (i + 1) es
        simp only [Run.after, List.cons_append, List.nil_append, List.countP_cons, Ev.is_wait,
          Ev.is_pipe, List.filterMap_cons, Ev.fork_index, a, b, c2]
        exact ⟨by simp, by simp, trivial, st, d⟩

theorem exec_counts (k : Kernel) (command : List Argv) (n : Nat) (inp out : Option CStr)
    (hp : ∀ i, k.pipe i ≠ none) (hf : ∀ i, k.fork i = true) (hw : ∀ i, k.wait i ≠ none) :
    (exec k command n inp out).trace.countP Ev.is_pipe = n - 1 ∧
    (exec k command n inp out).trace.filterMap Ev.fork_index = (List.range n).map (fun s => 2 * s) ∧
    (exec k command n inp out).trace.countP Ev.is_wait = n ∧
    ∃ status, (exec k command n inp out).fin = .returned status := by
  obtain ⟨fds, hfds, _⟩ := create_pipes_ok k hp (n - 1) 0
  obtain ⟨ht, hfin⟩ := exec_trace_ok k command n inp out fds hfds hf
  obtain ⟨a, b, c, st, d⟩ := wait_loop_ok k hw n 0 0
  rw [ht, hfin]
  refine ⟨?_, ?_, ?_, st, d⟩
  · simp only [List.countP_append, b, List.countP_map]
    have e1 : List.countP (Ev.is_pipe ∘ Ev.pipe) (List.range (n - 1)) = n - 1 := by
      rw [List.countP_eq_length.2 (by intro x _; rfl), List.length_range]
    have e2 : List.countP (Ev.is_pipe ∘ fun s => Ev.fork (2 * s)) (List.range n) = 0 :=
      List.countP_eq_zero.2 (by intro x _; simp [Ev.is_pipe])
    have e3 : List.countP (Ev.is_pipe ∘ Ev.close) fds = 0 :=
      List.countP_eq_zero.2 (by intro x _; simp [Ev.is_pipe])
    rw [e1, e2, e3]
    omega
  · simp only [List.filterMap_append, c, List.filterMap_map, List.append_nil]
    have e1 : List.filterMap (Ev.fork_index ∘ Ev.pipe) (List.range (n - 1)) = [] :=
      List.filterMap_eq_nil_iff.2 (by intro x _; rfl)
    have e3 : List.filterMap (Ev.fork_index ∘ Ev.close) fds = [] :=
      List.filterMap_eq_nil_iff.2 (by intro x _; rfl)
    have e2 : List.filterMap (Ev.fork_index ∘ fun s => Ev.fork (2 * s)) (List.range n) =
        (List.range n).map (fun s => 2 * s) := by
      rw [← List.filterMap_eq_map]
      rfl
    rw [e1, e2, e3]
    simp
  · simp only [List.countP_append, a, List.countP_map]
    have e1 : List.countP (Ev.is_wait ∘ Ev.pipe) (List.range (n - 1)) = 0 :=
      List.countP_eq_zero.2 (by intro x _; simp [Ev.is_wait])
    have e2 : List.countP (Ev.is_wait ∘ fun s => Ev.fork (2 * s)) (List.range n) = 0 :=
      List.countP_eq_zero.2 (by intro x _; simp [Ev.is_wait])
    have e3 : List.countP (Ev.is_wait ∘ Ev.close) fds = 0 :=
      List.countP_eq_zero.2 (by intro x _; simp [Ev.is_wait])
    rw [e1, e2, e3]
    simp

theorem strtok_r_buf_proj (delim : Char) (str : CStr) :
    strtok_r delim str = (strtok_r_buf delim str).map (fun r => (r.2.1, r.2.2.2)) := by
  unfold strtok_r strtok_r_buf
  cases h : str.dropWhile (fun c => c == delim) with
  | nil => rfl
  | cons c cs =>
    simp only
    cases h2 : (c :: cs).dropWhile (fun x => x != delim) with
    | nil => rfl
    | cons a rest => rfl

theorem strtok_r_buf_split (delim : Char) (str skipped tok written rest : CStr)
    (h : strtok_r_buf delim str = some (skipped, tok, written, rest)) :
    (written = [] ∧ rest = [] ∧ str = skipped ++ tok) ∨
    (written = [NUL] ∧ str = skipped ++ tok ++ delim :: rest) := by
  unfold strtok_r_buf at h
  have h0 := List.takeWhile_append_dropWhile (fun c => c == delim) str
  cases hd : str.dropWhile (fun c => c == delim) with
  | nil => rw [hd] at h; cases h
  | cons c cs =>
    rw [hd] at h h0
    simp only at h
    have h1 := List.takeWhile_append_dropWhile (fun x => x != delim) (c :: cs)
    cases hd2 : (c :: cs).dropWhile (fun x => x != delim) with
    | nil =>
      rw [hd2] at h h1
      simp only [Option.some.injEq, Prod.mk.injEq] at h
      obtain ⟨rfl, rfl, rfl, rfl⟩ := h
      left
      rw [List.append_nil] at h1
      exact ⟨rfl, rfl, by rw [h1, h0]⟩
    | cons a as =>
      have ha := head_dropWhile_ne delim _ a as hd2
      rw [hd2] at h h1
      simp only [Option.some.injEq, Prod.mk.injEq] at h
      obtain ⟨rfl, rfl, rfl, rfl⟩ := h
      right
      subst ha
      exact ⟨rfl, by rw [List.append_assoc, h1, h0]⟩

theorem get_arguments_loop_buf_fst (getenv : CStr → Option CStr) (fuel : Nat) :
    ∀ (str : CStr) (st : ArgState),
      (get_arguments_loop_buf getenv fuel str st).1 =
        get_arguments_loop getenv (strtok_loop ' ' fuel str) st := by
  induction fuel with
  | zero => intro str st; rfl
  | succ n ih =>
    intro str st
    unfold get_arguments_loop_buf strtok_loop
    rw [strtok_r_buf_proj]
    cases h : strtok_r_buf ' ' str with
    | none => rfl
    | some r =>
      obtain ⟨skipped, arg, written, rest⟩ := r
      simp only [Option.map_some']
      unfold get_arguments_loop
      cases hs : arg_step getenv arg st with
      | error d => rfl
      | ok st1 => simp only [ih rest st1]

theorem get_arguments_buf_fst (getenv : CStr → Option CStr) (command : CStr) :
    (get_arguments_buf getenv command).1 = get_arguments getenv command := by
  unfold get_arguments_buf get_arguments get_arguments_tokens tokens
  simp only [get_arguments_loop_buf_fst]

theorem split_commands_buf_stages (fuel : Nat) :
    ∀ str : CStr, (split_commands_buf fuel str).1.map (fun p => p.2.1) =
      strtok_loop '|' fuel str := by
  induction fuel with
  | zero => intro str; rfl
  | succ n ih =>
    intro str
    unfold split_commands_buf strtok_loop
    rw [strtok_r_buf_proj]
    cases h : strtok_r_buf '|' str with
    | none => rfl
    | some r =>
      obtain ⟨skipped, stage, written, rest⟩ := r
      simp only [Option.map_some', List.map_cons, ih rest]

theorem parse_loop_buf_fst (getenv : CStr → Option CStr) (n : Nat)
    (ps : List (CStr × CStr × List Char)) :
    ∀ (i : Nat) (st : Parsed),
      (parse_loop_buf getenv n ps i st).1 =
        parse_loop getenv n (ps.map (fun p => p.2.1)) i st := by
  induction ps with
  | nil => intro i st; rfl
  | cons p ps ih =>
    intro i st
    obtain ⟨skipped, c, written⟩ := p
    unfold parse_loop_buf
    simp only [List.map_cons]
    unfold parse_loop
    rw [get_arguments_buf_fst]
    cases hg : get_arguments getenv c with
    | error d => rfl
    | ok cmd =>
      simp only
      split_ifs
      · rfl
      · rfl
      · rfl
      · exact ih _ _

theorem parse_line_buf_fst (getenv : CStr → Option CStr) (command : CStr) :
    (parse_line_buf getenv command).1 = parse_line getenv command := by
  unfold parse_line_buf parse_line split_commands tokens
  simp only [parse_loop_buf_fst, split_commands_buf_stages]
  rw [← split_commands_buf_stages, List.length_map]

theorem overwritten_refl (l : List Char) : List.Forall₂ overwritten l l := by
  induction l with
  | nil => exact List.Forall₂.nil
  | cons a as ih => exact List.Forall₂.cons (Or.inl rfl) ih

theorem overwritten_append {a b c d : List Char} (h1 : List.Forall₂ overwritten a b)
    (h2 : List.Forall₂ overwritten c d) : List.Forall₂ overwritten (a ++ c) (b ++ d) := by
  induction h1 with
  | nil => exact h2
  | cons h _ ih => exact List.Forall₂.cons h ih

theorem get_arguments_loop_buf_bytes (getenv : CStr → Option CStr) (fuel : Nat) :
    ∀ (str : CStr) (st : ArgState),
      List.Forall₂ overwritten str (get_arguments_loop_buf getenv fuel str st).2 := by
  induction fuel with
  | zero => intro str st; exact overwritten_refl str
  | succ n ih =>
    intro str st
    unfold get_arguments_loop_buf
    cases h : strtok_r_buf ' ' str with
    | none => exact overwritten_refl str
    | some r =>
      obtain ⟨skipped, arg, written, rest⟩ := r
      have hw : List.Forall₂ overwritten (skipped ++ arg) (skipped ++ arg) :=
        overwritten_refl _
      have key : ∀ tail : List Char, List.Forall₂ overwritten rest tail →
          List.Forall₂ overwritten str (skipped ++ arg ++ written ++ tail) := by
        intro tail ht
        rcases strtok_r_buf_split ' ' str skipped arg written rest h with
          ⟨rfl, rfl, rfl⟩ | ⟨rfl, rfl⟩
        · cases ht
          simpa using hw
        · rw [List.append_assoc (skipped ++ arg)]
          exact overwritten_append hw
            (List.Forall₂.cons (Or.inr ⟨rfl, Or.inr rfl⟩) ht)
      simp only
      cases hs : arg_step getenv arg st with
      | error d => exact key rest (overwritten_refl rest)
      | ok st1 => exact key _ (ih rest st1)

theorem get_arguments_buf_bytes (getenv : CStr → Option CStr) (command : CStr) :
    List.Forall₂ overwritten command (get_arguments_buf getenv command).2 :=
  get_arguments_loop_buf_bytes getenv _ command _

theorem split_commands_buf_text (fuel : Nat) :
    ∀ str : CStr,
      pieces_text (split_commands_buf fuel str).1 ++ (split_commands_buf fuel str).2 = str ∧
      ∀ p ∈ (split_commands_buf fuel str).1, p.2.2 = [] ∨ p.2.2 = [NUL] := by
  induction fuel with
  | zero => intro str; exact ⟨rfl, fun p hp => by simp [split_commands_buf] at hp⟩
  | succ n ih =>
    intro str
    unfold split_commands_buf
    cases h : strtok_r_buf '|' str with
    | none => exact ⟨rfl, fun p hp => by simp at hp⟩
    | some r =>
      obtain ⟨skipped, stage, written, rest⟩ := r
      obtain ⟨ih1, ih2⟩ := ih rest
      simp only [pieces_text]
      constructor
      · rw [List.append_assoc, ih1]
        rcases strtok_r_buf_split '|' str skipped stage written rest h with
          ⟨rfl, rfl, rfl⟩ | ⟨rfl, rfl⟩
        · simp
        · simp
      · intro p hp
        simp only [List.mem_cons] at hp
        rcases hp with rfl | hp
        · rcases strtok_r_buf_split '|' str skipped stage written rest h with
            ⟨rfl, _, _⟩ | ⟨rfl, _⟩
          · exact Or.inl rfl
          · exact Or.inr rfl
        · exact ih2 p hp

theorem written_overwritten (written : List Char) (h : written = [] ∨ written = [NUL]) :
    List.Forall₂ overwritten (written.map (fun _ => '|')) written := by
  rcases h with rfl | rfl
  · exact List.Forall₂.nil
  · exact List.Forall₂.cons (Or.inr ⟨rfl, Or.inl rfl⟩) List.Forall₂.nil

theorem pieces_bytes_overwritten (ps : List (CStr × CStr × List Char))
    (hw : ∀ p ∈ ps, p.2.2 = [] ∨ p.2.2 = [NUL]) :
    List.Forall₂ overwritten (pieces_text ps) (pieces_bytes ps) := by
  induction ps with
  | nil => exact List.Forall₂.nil
  | cons p ps ih =>
    obtain ⟨skipped, stage, written⟩ := p
    simp only [pieces_text, pieces_bytes]
    exact overwritten_append
      (overwritten_append (overwritten_refl _) (written_overwritten written (hw (skipped, stage, written) (by simp))))
      (ih (fun q hq => hw q (by simp [hq])))

theorem parse_loop_buf_bytes (getenv : CStr → Option CStr) (n : Nat)
    (ps : List (CStr × CStr × List Char)) :
    ∀ (i : Nat) (st : Parsed), (∀ p ∈ ps, p.2.2 = [] ∨ p.2.2 = [NUL]) →
      List.Forall₂ overwritten (pieces_text ps) (parse_loop_buf getenv n ps i st).2 := by
  induction ps with
  | nil => intro i st _; exact List.Forall₂.nil
  | cons p ps ih =>
    intro i st hw
    obtain ⟨skipped, c, written⟩ := p
    have hhead : List.Forall₂ overwritten (skipped ++ c ++ written.map (fun _ => '|'))
        (skipped ++ (get_arguments_buf getenv c).2 ++ written) :=
      overwritten_append
        (overwritten_append (overwritten_refl _) (get_arguments_buf_bytes getenv c))
        (written_overwritten written (hw (skipped, c, written) (by simp)))
    have hrest := pieces_bytes_overwritten ps (fun q hq => hw q (by simp [hq]))
    have hw2 : ∀ q ∈ ps, q.2.2 = [] ∨ q.2.2 = [NUL] := fun q hq => hw q (by simp [hq])
    unfold parse_loop_buf
    simp only [pieces_text]
    cases hg : (get_arguments_buf getenv c).1 with
    | error d => exact overwritten_append hhead hrest
    | ok cmd =>
      simp only
      split_ifs
      · exact overwritten_append hhead hrest
      · exact overwritten_append hhead hrest
      · exact overwritten_append hhead hrest
      · exact overwritten_append hhead (ih _ _ hw2)

theorem parse_line_buf_bytes (getenv : CStr → Option CStr) (command : CStr) :
    List.Forall₂ overwritten command (parse_line_buf getenv command).2 := by
  obtain ⟨h1, h2⟩ := split_commands_buf_text (command.length + 1) command
  unfold parse_line_buf
  simp only
  conv_lhs => rw [← h1]
  exact overwritten_append (parse_loop_buf_bytes getenv _ _ 0 _ h2) (overwritten_refl _)

theorem text_of_overwritten {a b : List Char} (h : List.Forall₂ overwritten a b) :
    text_of b <+: a := by
  induction h with
  | nil => exact List.prefix_refl _
  | @cons x y xs ys hxy _ ih =>
    unfold text_of at ih ⊢
    by_cases hy : y = NUL
    · subst hy
      simp [List.takeWhile_cons]
    · have hx : y = x := by
        rcases hxy with h | ⟨h, _⟩
        · exact h
        · exact absurd h hy
      subst hx
      rw [List.takeWhile_cons_of_pos (by simpa using hy)]
      exact (List.prefix_cons_inj _).2 ih

theorem wait_loop_signals (k : Kernel) (statuses : List WaitStatus) :
    ∀ (i : Nat) (es : Int),
      (∀ j, j < statuses.length → k.wait (i + j) = statuses[j]?) →
      (wait_loop k statuses.length i es).trace.filterMap Ev.signal_diag =
          statuses.filterMap reported_signal ∧
      ((∀ s ∈ statuses, s = .signaled SIGPIPE ∨ ∃ code, s = .exited code) →
        ∀ d, Ev.diag d ∉ (wait_loop k statuses.length i es).trace) := by
  induction statuses with
  | nil =>
    intro i es _
    exact ⟨rfl, fun _ d h => by simp [wait_loop] at h⟩
  | cons s rest ih =>
    intro i es hw
    have h0 : k.wait i = some s := by simpa using hw 0 (by simp)
    have hrest : ∀ j, j < rest.length → k.wait (i + 1 + j) = rest[j]? := by
      intro j hj
      have := hw (j + 1) (by simpa using hj)
      simp only [List.getElem?_cons_succ] at this
      rw [← this]
      congr 1
      omega
    simp only [List.length_cons]
    unfold wait_loop
    rw [h0]
    cases s with
    | exited c =>
      obtain ⟨a, b⟩ := ih (i + 1) c hrest
      refine ⟨by simpa [Run.after, Ev.signal_diag, reported_signal] using a, ?_⟩
      intro hq d hd
      simp only [Run.after, List.singleton_append, List.mem_cons, reduceCtorEq, false_or] at hd
      exact b (fun s hs => hq s (by simp [hs])) d hd
    | signaled sg =>
      obtain ⟨a, b⟩ := ih (i + 1) es hrest
      by_cases hsg : sg = SIGPIPE
      · subst hsg
        simp only [ne_eq, not_true_eq_false, if_false]
        refine ⟨by simpa [Run.after, Ev.signal_diag, reported_signal] using a, ?_⟩
        intro hq d hd
        simp only [Run.after, List.singleton_append, List.mem_cons, reduceCtorEq, false_or] at hd
        exact b (fun s hs => hq s (by simp [hs])) d hd
      · simp only [ne_eq, hsg, not_false_eq_true, if_true]
        refine ⟨by simpa [Run.after, Ev.signal_diag, reported_signal, hsg] using a, ?_⟩
        intro hq
        exfalso
        rcases hq (.signaled sg) (by simp) with h | ⟨c, h⟩
        · exact hsg (WaitStatus.signaled.inj h)
        · cases h
    | other =>
      obtain ⟨a, b⟩ := ih (i + 1) es hrest
      refine ⟨by simpa [Run.after, Ev.signal_diag, reported_signal] using a, ?_⟩
      intro hq
      exfalso
      rcases hq .other (by simp) with h | ⟨c, h⟩ <;> cases h

theorem exec_signals (k : Kernel) (command : List Argv) (inp out : Option CStr)
    (statuses : List WaitStatus)
    (hp : ∀ i, k.pipe i ≠ none) (hf : ∀ i, k.fork i = true)
    (hw : ∀ j, j < statuses.length → k.wait j = statuses[j]?) :
    (exec k command statuses.length inp out).trace.filterMap Ev.signal_diag =
        statuses.filterMap reported_signal ∧
    ((∀ s ∈ statuses, s = .signaled SIGPIPE ∨ ∃ code, s = .exited code) →
      ∀ d, Ev.diag d ∉ (exec k command statuses.length inp out).trace) := by
  obtain ⟨fds, hfds, _⟩ := create_pipes_ok k hp (statuses.length - 1) 0
  obtain ⟨ht, _⟩ := exec_trace_ok k command statuses.length inp out fds hfds hf
  obtain ⟨a, b⟩ := wait_loop_signals k statuses 0 0 (by simpa using hw)
  rw [ht]
  constructor
  · simp only [List.filterMap_append, a, List.filterMap_map]
    have e1 : List.filterMap (Ev.signal_diag ∘ Ev.pipe) (List.range (statuses.length - 1)) = [] :=
      List.filterMap_eq_nil_iff.2 (by intro x _; rfl)
    have e2 : List.filterMap (Ev.signal_diag ∘ fun s => Ev.fork (2 * s))
        (List.range statuses.length) = [] :=
      List.filterMap_eq_nil_iff.2 (by intro x _; rfl)
    have e3 : List.filterMap (Ev.signal_diag ∘ Ev.close) fds = [] :=
      List.filterMap_eq_nil_iff.2 (by intro x _; rfl)
    rw [e1, e2, e3]
    simp
  · intro hq d hd
    simp only [List.mem_append, List.mem_map] at hd
    rcases hd with ((⟨x, _, h⟩ | ⟨x, _, h⟩) | ⟨x, _, h⟩) | h
    · cases h
    · cases h
    · cases h
    · exact b hq d h

theorem parse_loop_stage_cmd (getenv : CStr → Option CStr) (n : Nat) (cs : List CStr) :
    ∀ (i : Nat) (st p : Parsed), parse_loop getenv n cs i st = .ok p →
      ∀ (j : Nat) (stage : CStr), cs[j]? = some stage →
        ∃ cmd, get_arguments getenv stage = .ok cmd ∧
          (1 < n → i + j ≠ 0 → cmd.input_redirect_path = none) ∧
          (1 < n → i + j ≠ n - 1 → cmd.output_redirect_path = none) := by
  induction cs with
  | nil => intro i st p _ j stage hj; simp at hj
  | cons c cs ih =>
    intro i st p h j stage hj
    obtain ⟨cmd, hg, a, b, c3, hrest⟩ := parse_loop_cons_ok getenv n c cs i st p h
    cases j with
    | zero =>
      simp only [List.getElem?_cons_zero, Option.some.injEq] at hj
      subst hj
      refine ⟨cmd, hg, ?_, ?_⟩
      · intro hn hi
        by_contra hc
        by_cases hl : i = n - 1
        · exact b ⟨hn, hl, hc⟩
        · exact c3 ⟨hn, ⟨by omega, hl⟩, Or.inl hc⟩
      · intro hn hl
        by_contra hc
        by_cases hi : i = 0
        · exact a ⟨hn, hi, hc⟩
        · exact c3 ⟨hn, ⟨hi, by omega⟩, Or.inr hc⟩
    | succ j =>
      simp only [List.getElem?_cons_succ] at hj
      obtain ⟨cmd2, hg2, h1, h2⟩ := ih (i + 1) _ p hrest j stage hj
      have e : i + 1 + j = i + (j + 1) := by omega
      rw [e] at h1 h2
      exact ⟨cmd2, hg2, h1, h2⟩

theorem parse_loop_input_kept (getenv : CStr → Option CStr) (n : Nat) (cs : List CStr) :
    ∀ (i : Nat) (st p : Parsed), parse_loop getenv n cs i st = .ok p → 1 < n → 0 < i →
      p.input_redirect_path = st.input_redirect_path := by
  induction cs with
  | nil =>
    intro i st p h _ _
    unfold parse_loop at h
    rw [← Except.ok.inj h]
  | cons c cs ih =>
    intro i st p h hn hi
    obtain ⟨cmd, hg, a, b, c3, hrest⟩ := parse_loop_cons_ok getenv n c cs i st p h
    have hin : cmd.input_redirect_path = none := by
      by_contra hc
      by_cases hl : i = n - 1
      · exact b ⟨hn, hl, hc⟩
      · exact c3 ⟨hn, ⟨by omega, hl⟩, Or.inl hc⟩
    rw [ih (i + 1) _ p hrest hn (by omega)]
    simp only [hin]

theorem parse_loop_output_last (getenv : CStr → Option CStr) (n : Nat) (cs : List CStr) :
    ∀ (i : Nat) (st p : Parsed), parse_loop getenv n cs i st = .ok p → 1 < n →
      i + cs.length = n → st.output_redirect_path = none →
      ∀ last, cs.getLast? = some last →
        ∃ cmd, get_arguments getenv last = .ok cmd ∧
          p.output_redirect_path = cmd.output_redirect_path := by
  induction cs with
  | nil => intro i st p _ _ _ _ last hl; simp at hl
  | cons c cs ih =>
    intro i st p h hn hlen hst last hl
    obtain ⟨cmd, hg, a, b, c3, hrest⟩ := parse_loop_cons_ok getenv n c cs i st p h
    cases cs with
    | nil =>
      simp only [List.getLast?_singleton, Option.some.injEq] at hl
      subst hl
      unfold parse_loop at hrest
      rw [← Except.ok.inj hrest]
      refine ⟨cmd, hg, ?_⟩
      simp only [hst]
      cases cmd.output_redirect_path <;> rfl
    | cons c2 cs2 =>
      simp only [List.length_cons] at hlen
      have hout : cmd.output_redirect_path = none := by
        by_contra hc
        by_cases hi : i = 0
        · exact a ⟨hn, hi, hc⟩
        · exact c3 ⟨hn, ⟨hi, by omega⟩, Or.inr hc⟩
      have hl2 : (c2 :: cs2).getLast? = some last := by
        rw [List.getLast?_cons_cons] at hl; exact hl
      exact ih (i + 1) _ p hrest hn (by simp only [List.length_cons]; omega)
        (by simp only [hout, hst]) last hl2

theorem parse_line_paths (getenv : CStr → Option CStr) (line : CStr) (p : Parsed)
    (hp : parse_line getenv line = .ok p) :
    (∀ first, (split_commands line)[0]? = some first →
      ∃ cmd, get_arguments getenv first = .ok cmd ∧
        p.input_redirect_path = cmd.input_redirect_path) ∧
    (∀ last, (split_commands line)[(split_commands line).length - 1]? = some last →
      ∃ cmd, get_arguments getenv last = .ok cmd ∧
        p.output_redirect_path = cmd.output_redirect_path) := by
  unfold parse_line at hp
  cases hs : split_commands line with
  | nil => exact ⟨fun first h => by simp at h, fun last h => by simp at h⟩
  | cons c cs =>
    rw [hs] at hp
    obtain ⟨cmd, hg, a, b, c3, hrest⟩ := parse_loop_cons_ok getenv _ c cs 0 _ p hp
    cases cs with
    | nil =>
      unfold parse_loop at hrest
      have hpe := (Except.ok.inj hrest).symm
      constructor
      · intro first hf
        simp only [List.getElem?_cons_zero, Option.some.injEq] at hf
        subst hf
        refine ⟨cmd, hg, ?_⟩
        rw [hpe]
        cases cmd.input_redirect_path <;> rfl
      · intro last hl
        simp only [List.length_singleton, Nat.sub_self, List.getElem?_cons_zero,
          Option.some.injEq] at hl
        subst hl
        refine ⟨cmd, hg, ?_⟩
        rw [hpe]
        cases cmd.output_redirect_path <;> rfl
    | cons c2 cs2 =>
      have hn : 1 < (c :: c2 :: cs2).length := by simp
      constructor
      · intro first hf
        simp only [List.getElem?_cons_zero, Option.some.injEq] at hf
        subst hf
        refine ⟨cmd, hg, ?_⟩
        rw [parse_loop_input_kept getenv _ _ 1 _ p hrest hn (by omega)]
        cases cmd.input_redirect_path <;> rfl
      · intro last hl
        have hout : cmd.output_redirect_path = none := by
          by_contra hc
          exact a ⟨hn, rfl, hc⟩
        have hl2 : (c2 :: cs2).getLast? = some last := by
          rw [List.getLast?_eq_getElem?]
          simp only [List.length_cons, Nat.add_sub_cancel, List.getElem?_cons_succ] at hl ⊢
          exact hl
        exact parse_loop_output_last getenv _ (c2 :: cs2) 1 _ p hrest hn
          (by simp only [List.length_cons]; omega) (by simp only [hout]) last hl2

/-- C1: on a line of more than one stage, `parse_line` succeeds only if no
stage but the first has a token starting with `<` and no stage but the last has
one starting with `>`; and when the first stage carries an output redirect, the
last an input redirect, or an interior stage either, `parse_line` fails and
`my_system` returns 1 having only printed the diagnostic (no `exec`, no
`change_dir`, no `fork`). -/
theorem C1_redirect_placement (k : Kernel) (line : CStr)
    (hN : 1 < (split_commands line).length) :
    ((∃ p, parse_line k.getenv line = .ok p) →
      ∀ (i : Nat) (stage : CStr), (split_commands line)[i]? = some stage →
        (i ≠ 0 → carries_input stage = false) ∧
        (i ≠ (split_commands line).length - 1 → carries_output stage = false)) ∧
    ((∃ (i : Nat) (stage : CStr), (split_commands line)[i]? = some stage ∧
        ((i = 0 ∧ carries_output stage = true) ∨
         (i = (split_commands line).length - 1 ∧ carries_input stage = true) ∨
         (0 < i ∧ i < (split_commands line).length - 1 ∧
            (carries_input stage = true ∨ carries_output stage = true)))) →
      ∃ d, parse_line k.getenv line = .error d ∧
        my_system k line = ⟨[.diag d], .returned 1⟩) := by
  have fwd : (∃ p, parse_line k.getenv line = .ok p) →
      ∀ (i : Nat) (stage : CStr), (split_commands line)[i]? = some stage →
        (i ≠ 0 → carries_input stage = false) ∧
        (i ≠ (split_commands line).length - 1 → carries_output stage = false) := by
    rintro ⟨p, hp⟩ i stage hi
    have := parse_loop_ok_stage k.getenv _ _ 0 _ p hp hN i stage hi
    simpa using this
  refine ⟨fwd, ?_⟩
  rintro ⟨i, stage, hi, hc⟩
  cases hp : parse_line k.getenv line with
  | error d => exact ⟨d, rfl, my_system_parse_error k line d hp⟩
  | ok p =>
    exfalso
    obtain ⟨f1, f2⟩ := fwd ⟨p, hp⟩ i stage hi
    rcases hc with ⟨h0, ho⟩ | ⟨hl, hin⟩ | ⟨h0, hl, hin | ho⟩
    · rw [f2 (by omega)] at ho; cases ho
    · rw [f1 (by omega)] at hin; cases hin
    · rw [f1 (by omega)] at hin; cases hin
    · rw [f2 (by omega)] at ho; cases ho

/-- Witness for C1 on the line `ls >o | wc`: it has two stages, the first one
carries an output redirect, and `my_system` returns 1 after a diagnostic only. -/
theorem C1_redirect_placement_witness :
    1 < (split_commands "ls >o | wc".toList).length ∧
      ∃ d, my_system kernel_ok "ls >o | wc".toList = ⟨[.diag d], .returned 1⟩ :=
  ⟨by decide,
    ((C1_redirect_placement kernel_ok "ls >o | wc".toList (by decide)).2
      ⟨0, "ls >o ".toList, by decide, Or.inl ⟨rfl, by decide⟩⟩).imp fun _ h => h.2⟩

/-- C2, evaluated at the line `|ls`: the text before the first `|` is empty, yet
the pre-check of `main` lets the line through and `my_system` calls `exec` on
the single stage `ls`; with a kernel where every call succeeds and the child
exits with code 3, the recorded exit status is 3, not 1. -/
theorem C2_leading_pipe_runs_exec (k : Kernel) :
    '|' ∈ "|ls".toList ∧ "|ls".toList.takeWhile (fun c => c != '|') = [] ∧
    main_step k "|ls".toList =
      Run.after [.call_exec [[some "ls".toList, none]] none none]
        (exec k [[some "ls".toList, none]] 1 none none) ∧
    main_step kernel_ok "|ls".toList =
      ⟨[.call_exec [[some "ls".toList, none]] none none, .fork 0, .wait], .returned 3⟩ :=
  ⟨by decide, by decide, by rfl, by decide⟩

/-- C3: `get_arguments` fails exactly when, among the space-separated tokens of
the stage, some token is a bare `>` or `<`, or two tokens start with `>` or two
start with `<`, or a token starting with `$` names an unset variable, or every
token (possibly none) is a redirection token. -/
theorem C3_get_arguments_fails_iff (getenv : CStr → Option CStr) (command : CStr) :
    (∃ d, get_arguments getenv command = .error d) ↔
      ((∃ t ∈ tokens ' ' command, t = ['>'] ∨ t = ['<']) ∨
       (2 ≤ ((tokens ' ' command).filter (starts '>')).length ∨
        2 ≤ ((tokens ' ' command).filter (starts '<')).length) ∨
       (∃ t ∈ tokens ' ' command, starts '$' t = true ∧ getenv t.tail = none) ∨
       (∀ t ∈ tokens ' ' command, is_redirect t = true)) :=
  get_arguments_tokens_fail_iff getenv (tokens ' ' command)

/-- C4: when `get_arguments` succeeds, the argument array is the
non-redirection tokens in order, each `$` token replaced by its value, followed
by `NULL` at the index equal to their number; the output path is the text after
`>` of the one token starting with `>` (unset when there is none), and the input
path likewise for `<`. -/
theorem C4_get_arguments_result (getenv : CStr → Option CStr) (command : CStr)
    (cmd : Command) (h : get_arguments getenv command = .ok cmd) :
    cmd.arguments =
        ((tokens ' ' command).filter (fun t => !is_redirect t)).map (resolve getenv) ++ [none] ∧
    (∀ t ∈ (tokens ' ' command).filter (fun t => !is_redirect t),
        ∃ v, resolve getenv t = some v) ∧
    cmd.arguments[((tokens ' ' command).filter (fun t => !is_redirect t)).length]? =
        some none ∧
    (∀ j, j < ((tokens ' ' command).filter (fun t => !is_redirect t)).length →
        ∃ v, cmd.arguments[j]? = some (some v)) ∧
    (((tokens ' ' command).filter (starts '>') = [] ∧ cmd.output_redirect_path = none) ∨
      ∃ t, (tokens ' ' command).filter (starts '>') = [t] ∧
        cmd.output_redirect_path = some t.tail) ∧
    (((tokens ' ' command).filter (starts '<') = [] ∧ cmd.input_redirect_path = none) ∨
      ∃ t, (tokens ' ' command).filter (starts '<') = [t] ∧
        cmd.input_redirect_path = some t.tail) :=
  get_arguments_tokens_ok getenv (tokens ' ' command) cmd h

/-- Witness for C4 on the stage `<in echo $FOO >out hi` with `FOO=bar`. -/
theorem C4_get_arguments_result_witness :
    get_arguments env_foo "<in echo $FOO >out hi".toList =
        .ok ⟨[some "echo".toList, some "bar".toList, some "hi".toList, none],
          some "in".toList, some "out".toList⟩ ∧
      (⟨[some "echo".toList, some "bar".toList, some "hi".toList, none],
          some "in".toList, some "out".toList⟩ : Command).arguments[3]? = some none :=
  ⟨by rfl,
    (C4_get_arguments_result env_foo "<in echo $FOO >out hi".toList
      ⟨[some "echo".toList, some "bar".toList, some "hi".toList, none],
        some "in".toList, some "out".toList⟩ (by rfl)).2.2.1⟩

/-- C5: when the tokens of a stage are `pre`, then `$name`, then `post`, the
variable `name` has the value `v`, and `get_arguments` succeeds, the slot of the
argument array at the position of that token (the number of non-redirection
tokens before it) holds `v` whole, whatever characters `v` contains; and the
result is the one obtained with any literal token in its place, that slot apart:
same success, same number of arguments, same redirection paths.  With `FOO=bar`
the stage `echo $FOO` gives the arguments `echo`, `bar`. -/
theorem C5_env_substitution (getenv : CStr → Option CStr) (command : CStr)
    (pre post : List CStr) (name v : CStr) (cmd : Command)
    (htok : tokens ' ' command = pre ++ ('$' :: name) :: post)
    (hset : getenv name = some v)
    (hok : get_arguments getenv command = .ok cmd) :
    cmd.arguments[(pre.filter (fun t => !is_redirect t)).length]? = some (some v) ∧
    (∀ lit, is_redirect lit = false → starts '$' lit = false →
      ∃ cmd2, get_arguments_tokens getenv (pre ++ lit :: post) = .ok cmd2 ∧
        cmd.arguments =
          cmd2.arguments.set (pre.filter (fun t => !is_redirect t)).length (some v) ∧
        cmd2.arguments.length = cmd.arguments.length ∧
        cmd.input_redirect_path = cmd2.input_redirect_path ∧
        cmd.output_redirect_path = cmd2.output_redirect_path) ∧
    get_arguments env_foo "echo $FOO".toList =
      .ok ⟨[some "echo".toList, some "bar".toList, none], none, none⟩ := by
  unfold get_arguments at hok
  rw [htok] at hok
  refine ⟨?_, ?_, by rfl⟩
  · have a1 := (get_arguments_tokens_ok getenv _ cmd hok).1
    have e1 : resolve getenv ('$' :: name) = some v := by simp [resolve, starts, hset]
    simp only [List.filter_append, List.filter_cons, dollar_not_redirect, Bool.not_false,
      if_true, List.map_append, List.map_cons, e1] at a1
    rw [a1, List.append_assoc, List.getElem?_append_right (by simp)]
    simp
  · intro lit hl hd
    exact get_arguments_dollar_as_literal getenv pre post name v lit cmd hset hok hl hd

/-- Witness for C5 on the stage `echo $FOO x` with `FOO=bar`. -/
theorem C5_env_substitution_witness :
    (tokens ' ' "echo $FOO x".toList = ["echo".toList] ++ ('$' :: "FOO".toList) :: ["x".toList] ∧
      env_foo "FOO".toList = some "bar".toList ∧
      get_arguments env_foo "echo $FOO x".toList =
        .ok ⟨[some "echo".toList, some "bar".toList, some "x".toList, none], none, none⟩) ∧
    (⟨[some "echo".toList, some "bar".toList, some "x".toList, none], none, none⟩ :
        Command).arguments[(["echo".toList].filter (fun t => !is_redirect t)).length]? =
      some (some "bar".toList) :=
  ⟨⟨by decide, by decide, by rfl⟩,
    (C5_env_substitution env_foo "echo $FOO x".toList ["echo".toList] ["x".toList]
      "FOO".toList "bar".toList
      ⟨[some "echo".toList, some "bar".toList, some "x".toList, none], none, none⟩
      (by decide) (by decide) (by rfl)).1⟩

/-- C6: when a line parses into more than one stage and the program name of
some stage, at any position, is `cd`, `my_system` returns 1 having only printed
the diagnostic: neither `exec` nor `change_dir` is called.  So it is for
`cd | ls` and for `ls | cd`. -/
theorem C6_cd_in_pipeline (k : Kernel) :
    (∀ (line : CStr) (p : Parsed), parse_line k.getenv line = .ok p →
      1 < p.line.length →
      (∃ (i : Nat) (argv : Argv), p.line[i]? = some argv ∧ is_cd argv = true) →
      my_system k line = ⟨[.diag .cd_not_alone], .returned 1⟩) ∧
    my_system k "cd | ls".toList = ⟨[.diag .cd_not_alone], .returned 1⟩ ∧
    my_system k "ls | cd".toList = ⟨[.diag .cd_not_alone], .returned 1⟩ :=
  ⟨fun line p hp hN hcd => my_system_cd_pipeline k line p hp hN hcd, by rfl, by rfl⟩

/-- Witness for C6 on the line `ls | wc | cd`. -/
theorem C6_cd_in_pipeline_witness :
    (parse_line kernel_ok.getenv "ls | wc | cd".toList =
        .ok ⟨[[some "ls".toList, none], [some "wc".toList, none], [some "cd".toList, none]],
          none, none⟩ ∧
      1 < ([[some "ls".toList, none], [some "wc".toList, none],
          [some "cd".toList, none]] : List Argv).length) ∧
    my_system kernel_ok "ls | wc | cd".toList = ⟨[.diag .cd_not_alone], .returned 1⟩ :=
  ⟨⟨by rfl, by decide⟩,
    (C6_cd_in_pipeline kernel_ok).1 "ls | wc | cd".toList
      ⟨[[some "ls".toList, none], [some "wc".toList, none], [some "cd".toList, none]],
        none, none⟩
      (by rfl) (by decide) ⟨2, [some "cd".toList, none], by rfl, by rfl⟩⟩

/-- C7: on a line of one stage whose program name is `cd` and which has a token
starting with `<` or `>`, `my_system` returns 1 having only printed a
diagnostic: neither `change_dir` nor `exec` is called.  And `change_dir` is
called only when the line parsed into exactly one stage, its program name is
`cd`, and both redirection paths are unset. -/
theorem C7_cd_redirect (k : Kernel) (line : CStr) :
    (∀ stage, split_commands line = [stage] →
      program_name k.getenv stage = some ['c', 'd'] →
      (carries_input stage = true ∨ carries_output stage = true) →
      ∃ d, my_system k line = ⟨[.diag d], .returned 1⟩) ∧
    (∀ a, Ev.call_change_dir a ∈ (my_system k line).trace →
      ∃ p, parse_line k.getenv line = .ok p ∧ p.line = [a] ∧ is_cd a = true ∧
        p.input_redirect_path = none ∧ p.output_redirect_path = none) := by
  refine ⟨?_, fun a h => my_system_change_dir_only k line a h⟩
  intro stage hs hname hr
  cases hp : parse_line k.getenv line with
  | error d => exact ⟨d, my_system_parse_error k line d hp⟩
  | ok p =>
    obtain ⟨cmd, hg, rfl⟩ := parse_line_single k.getenv line stage p hs hp
    refine ⟨.cd_redirect, my_system_cd_redirect k line _ hp rfl ?_ ?_⟩
    · have a1 := (get_arguments_tokens_ok k.getenv _ cmd hg).1
      unfold program_name at hname
      simp only [List.getD_cons_zero]
      rw [a1]
      cases hl : (tokens ' ' stage).filter (fun t => !is_redirect t) with
      | nil => rw [hl] at hname; simp at hname
      | cons t ts =>
        rw [hl] at hname
        have hname2 : resolve k.getenv t = some ['c', 'd'] := by simpa using hname
        simp only [List.map_cons, List.cons_append, hname2, is_cd]
        rfl
    · simp only
      rcases hr with h | h
      · left
        intro hn
        rw [(carries_input_iff k.getenv stage cmd hg).2 hn] at h
        cases h
      · right
        intro hn
        rw [(carries_output_iff k.getenv stage cmd hg).2 hn] at h
        cases h

/-- Witness for C7 on the line `cd >out dir`. -/
theorem C7_cd_redirect_witness :
    (split_commands "cd >out dir".toList = ["cd >out dir".toList] ∧
      program_name kernel_ok.getenv "cd >out dir".toList = some ['c', 'd'] ∧
      carries_output "cd >out dir".toList = true) ∧
    ∃ d, my_system kernel_ok "cd >out dir".toList = ⟨[.diag d], .returned 1⟩ :=
  ⟨⟨by decide, by decide, by decide⟩,
    (C7_cd_redirect kernel_ok "cd >out dir".toList).1 "cd >out dir".toList
      (by decide) (by decide) (Or.inr (by decide))⟩

/-- C8, evaluated where `HOME` is unset: with no path argument `change_dir`
takes `getenv("HOME")`, which is `NULL`, and hands it to `chdir` and `strlen`:
the behaviour is undefined (a crash of the interpreter), where the claim says it
changes to the value of `HOME` and returns 0 or 1; so it is for the line `cd`.
The other cases are as the claim says: two or more path arguments return 1
without `chdir`; one path argument, or none with `HOME` set, call `chdir` on it
and return 0 when it succeeds and 1 when it fails. -/
theorem C8_change_dir_home_unset (k : Kernel) (name : CStr) :
    change_dir { k with getenv := fun _ => none } [some name, none] = ⟨[], .undefined⟩ ∧
    my_system { k with getenv := fun _ => none } "cd".toList =
      ⟨[.call_change_dir [some "cd".toList, none]], .undefined⟩ ∧
    (Outcome.undefined ≠ Outcome.returned 1 ∧ Outcome.undefined ≠ Outcome.returned 0) ∧
    (∀ (a1 a2 : CStr) (more : List CStr),
      change_dir k (some name :: some a1 :: some a2 :: (more.map some ++ [none])) =
        ⟨[.diag .cd_too_many], .returned 1⟩) ∧
    (∀ a1 : CStr, change_dir k [some name, some a1, none] =
      if k.chdir a1 then ⟨[.chdir a1], .returned 0⟩
      else ⟨[.chdir a1, .diag (.cd_error a1)], .returned 1⟩) ∧
    (∀ home : CStr,
      change_dir { k with getenv := fun _ => some home } [some name, none] =
        if k.chdir home then ⟨[.chdir home], .returned 0⟩
        else ⟨[.chdir home, .diag (.cd_error home)], .returned 1⟩) :=
  ⟨by rfl, by rfl, ⟨by decide, by decide⟩, fun a1 a2 more => rfl, fun a1 => rfl,
    fun home => rfl⟩

/-- C9, evaluated where `open` fails: the child of stage 0 whose input file
cannot be opened, and the child of a one-stage pipeline whose output file cannot
be opened, end by returning 1 from `exec` to its caller: they do not call
`exit`, and the claim says they terminate with status 1. -/
theorem C9_open_failure_returns (k : Kernel) (command : List Argv) (command_no : Nat)
    (path : CStr) (other : Option CStr) (pipe_fds : List Int) :
    exec_child { k with sys_open := fun _ _ => none } command command_no
        (some path) other pipe_fds 0 =
      ⟨[.sys_open path O_RDONLY none, .diag (.open_input_error path)], .returned 1⟩ ∧
    exec_child { k with sys_open := fun _ _ => none } command 1 none (some path) pipe_fds 0 =
      ⟨[.sys_open path output_flags (some output_mode), .diag (.open_output_error path)],
        .returned 1⟩ ∧
    (Outcome.returned 1 ≠ Outcome.exited 1) :=
  ⟨by rfl, by rfl, by decide⟩

/-- C10: when the pipes and forks succeed and the `N` wait calls return the
statuses of the sequence in order, `exec` returns the exit code of the last
status of the sequence that is a normal exit, and 0 when there is none. -/
theorem C10_exit_status (k : Kernel) (command : List Argv) (inp out : Option CStr)
    (statuses : List WaitStatus)
    (hp : ∀ i, k.pipe i ≠ none) (hf : ∀ i, k.fork i = true)
    (hw : ∀ j, j < statuses.length → k.wait j = statuses[j]?) :
    (exec k command statuses.length inp out).fin =
      .returned (match last_normal_exit statuses with
        | some code => (code : Int)
        | none => 0) :=
  exec_fin k command inp out statuses hp hf hw

/-- Witness for C10: three children, reaped as exited with code 3, killed by
signal 13, killed by signal 13; `exec` returns 3. -/
theorem C10_exit_status_witness :
    ((∀ i, kernel_ok.pipe i ≠ none) ∧ (∀ i, kernel_ok.fork i = true) ∧
      (∀ j, j < [WaitStatus.exited 3, .signaled 13, .signaled 13].length →
        kernel_ok.wait j = [WaitStatus.exited 3, .signaled 13, .signaled 13][j]?)) ∧
    (exec kernel_ok [] 3 none none).fin = .returned 3 :=
  ⟨⟨fun _ => by simp [kernel_ok], fun _ => rfl, by decide⟩,
    C10_exit_status kernel_ok [] none none [.exited 3, .signaled 13, .signaled 13]
      (fun _ => by simp [kernel_ok]) (fun _ => rfl) (by decide)⟩

/-- C11: a line that passes the pre-checks of `main` (not only spaces, no `|`
followed only by spaces) and on which `parse_line` succeeds has at least one
stage, as many parsed stages as `split_commands` found, and every parsed stage
is an array that starts with a real string (the program name) and ends with
the `NULL` sentinel. -/
theorem C11_stages_and_names (getenv : CStr → Option CStr) (line : CStr) (p : Parsed)
    (h1 : check_spaces line '\x00' = false) (h2 : empty_pipe line = false)
    (hp : parse_line getenv line = .ok p) :
    1 ≤ p.line.length ∧ p.line.length = (split_commands line).length ∧
    ∀ argv ∈ p.line, ∃ (name : CStr) (args : List CStr),
      argv = some name :: (args.map some ++ [none]) := by
  obtain ⟨hl, hm⟩ := parse_loop_line getenv _ _ 0 _ p hp
  simp only [List.length_nil, zero_add] at hl
  have hne := split_commands_ne_nil line h1 h2
  refine ⟨?_, hl, ?_⟩
  · rw [hl]
    exact List.length_pos.2 hne
  · intro argv ha
    rcases hm argv ha with h | ⟨c, _, cmd, hg, he⟩
    · simp at h
    · rw [← he]
      exact get_arguments_tokens_argv getenv _ cmd hg

/-- Witness for C11 on the line `ls | wc`. -/
theorem C11_stages_and_names_witness :
    (check_spaces "ls | wc".toList '\x00' = false ∧ empty_pipe "ls | wc".toList = false ∧
      parse_line env_foo "ls | wc".toList =
        .ok ⟨[[some "ls".toList, none], [some "wc".toList, none]], none, none⟩) ∧
    1 ≤ ([[some "ls".toList, none], [some "wc".toList, none]] : List Argv).length :=
  ⟨⟨by decide, by decide, by rfl⟩,
    (C11_stages_and_names env_foo "ls | wc".toList
      ⟨[[some "ls".toList, none], [some "wc".toList, none]], none, none⟩
      (by decide) (by decide) (by rfl)).1⟩

/-- Counterexample to C12 as stated: the line made of one tab is made only of
whitespace characters, yet `main` hands it to `my_system`, which forks a child
for the program named by the tab. -/
theorem C12_counterexample :
    ¬ (∀ (k : Kernel) (line : CStr), (∀ c ∈ line, c.isWhitespace = true) →
      main_step k line = ⟨[], .returned 0⟩) := by
  intro h
  have := h kernel_ok ['\t'] (by decide)
  revert this
  decide

/-- C12, amended: on a line that is empty or made only of space characters the
turn of `main` ends with an empty trace (no `my_system`, no process, no
`chdir`) and the recorded status 0. -/
theorem C12_blank_line (k : Kernel) (line : CStr) (h : ∀ c ∈ line, c = ' ') :
    main_step k line = ⟨[], .returned 0⟩ := by
  unfold main_step
  rw [check_spaces_of_spaces line _ h]
  simp

/-- Witness for C12 on the line of three spaces. -/
theorem C12_blank_line_witness :
    (∀ c ∈ "   ".toList, c = ' ') ∧ main_step kernel_ok "   ".toList = ⟨[], .returned 0⟩ :=
  ⟨by decide, C12_blank_line kernel_ok "   ".toList (by decide)⟩

/-- C14: every `open` made by a child of `exec` is either the input path with
`O_RDONLY`, or the output path with `O_CREAT | O_APPEND | O_WRONLY` and the mode
`S_IROTH | S_IWGRP | S_IWUSR | S_IRUSR | S_IRGRP`; the parent opens nothing;
the output flags are the three named bits and not `O_TRUNC`, and the mode is
octal 0664. -/
theorem C14_open_flags (k : Kernel) (command : List Argv) (command_no : Nat)
    (inp out : Option CStr) (pipe_fds : List Int) (i : Nat) :
    (∀ (path : CStr) (flags : Nat) (mode : Option Nat),
      Ev.sys_open path flags mode ∈
          (exec_child k command command_no inp out pipe_fds i).trace →
        (inp = some path ∧ flags = O_RDONLY ∧ mode = none) ∨
        (out = some path ∧ flags = O_CREAT ||| O_APPEND ||| O_WRONLY ∧
          mode = some (S_IROTH ||| S_IWGRP ||| S_IWUSR ||| S_IRUSR ||| S_IRGRP))) ∧
    (∀ (path : CStr) (flags : Nat) (mode : Option Nat),
      Ev.sys_open path flags mode ∉ (exec k command command_no inp out).trace) ∧
    (O_CREAT ||| O_APPEND ||| O_WRONLY) &&& O_CREAT = O_CREAT ∧
    (O_CREAT ||| O_APPEND ||| O_WRONLY) &&& O_APPEND = O_APPEND ∧
    (O_CREAT ||| O_APPEND ||| O_WRONLY) &&& O_WRONLY = O_WRONLY ∧
    O_CREAT ||| O_APPEND ||| O_WRONLY = O_CREAT + O_APPEND + O_WRONLY ∧
    (O_CREAT ||| O_APPEND ||| O_WRONLY) &&& O_TRUNC = 0 ∧
    S_IROTH ||| S_IWGRP ||| S_IWUSR ||| S_IRUSR ||| S_IRGRP = 0o664 := by
  refine ⟨?_, ?_, by decide, by decide, by decide, by decide, by decide, by decide⟩
  · intro path flags mode h
    rcases exec_child_open k command command_no inp out pipe_fds i path flags mode h with
      ⟨_, a, b, c⟩ | ⟨_, a, b, c⟩
    · exact Or.inl ⟨a, b, c⟩
    · exact Or.inr ⟨a, b, c⟩
  · intro path flags mode h
    rcases exec_trace_events k command command_no inp out _ h with
      ⟨s, h⟩ | ⟨s, h⟩ | ⟨fd, h⟩ | h | ⟨d, h⟩ <;> cases h

/-- Witness for C14 on the one-stage pipeline `ls >out`. -/
theorem C14_open_flags_witness :
    Ev.sys_open "out".toList output_flags (some output_mode) ∈
        (exec_child kernel_ok [[some "ls".toList, none]] 1 none (some "out".toList) [] 0).trace ∧
      ((none : Option CStr) = some "out".toList ∧ output_flags = O_RDONLY ∧
          some output_mode = none ∨
        some "out".toList = some "out".toList ∧
          output_flags = O_CREAT ||| O_APPEND ||| O_WRONLY ∧
          some output_mode = some (S_IROTH ||| S_IWGRP ||| S_IWUSR ||| S_IRUSR ||| S_IRGRP)) :=
  ⟨by decide,
    (C14_open_flags kernel_ok [[some "ls".toList, none]] 1 none (some "out".toList) [] 0).1
      "out".toList output_flags (some output_mode) (by decide)⟩

/-- Counterexample to C15 as stated: `a||b` has two `|` and gives two stages, not three. -/
theorem C15_counterexample :
    ¬ (∀ line : CStr, (split_commands line).length = line.count '|' + 1) := by
  intro h
  have := h "a||b".toList
  revert this
  decide

/-- C15, amended: `split_commands` returns, in order, the non-empty segments of
the line between `|`; no stage is empty or contains a `|`; the line has as many
segments as `|` plus one, and when none of them is empty the stages are the
segments and their number is the number of `|` plus one. -/
theorem C15_split_commands (line : CStr) :
    split_commands line = (line.splitOn '|').filter (fun seg => !seg.isEmpty) ∧
    (∀ stage ∈ split_commands line, stage ≠ [] ∧ '|' ∉ stage) ∧
    (line.splitOn '|').length = line.count '|' + 1 ∧
    ((∀ seg ∈ line.splitOn '|', seg ≠ []) →
      split_commands line = line.splitOn '|' ∧
      (split_commands line).length = line.count '|' + 1) := by
  have h1 : split_commands line = (line.splitOn '|').filter (fun seg => !seg.isEmpty) :=
    tokens_eq_segments '|' line
  refine ⟨h1, fun stage hs => tokens_mem '|' line stage hs, splitOn_length '|' line, ?_⟩
  intro hne
  have h2 : split_commands line = line.splitOn '|' := by
    rw [h1, filter_nonempty_eq_self _ hne]
  exact ⟨h2, by rw [h2, splitOn_length]⟩

/-- Witness for C15 on the line `ls | wc`. -/
theorem C15_split_commands_witness :
    (∀ seg ∈ "ls | wc".toList.splitOn '|', seg ≠ []) ∧
    split_commands "ls | wc".toList = "ls | wc".toList.splitOn '|' :=
  ⟨by decide, ((C15_split_commands "ls | wc".toList).2.2.2 (by decide)).1⟩

/-- Counterexample to C16 as stated: the stage `a<TAB>b` is one token, which
contains a whitespace character. -/
theorem C16_counterexample :
    ¬ (∀ stage : CStr, ∀ tok ∈ tokens ' ' stage, ∀ c ∈ tok, c.isWhitespace = false) := by
  intro h
  have := h ['a', '\t', 'b'] ['a', '\t', 'b'] (by decide) '\t' (by decide)
  revert this
  decide

/-- C16, amended: the tokens `get_arguments` iterates over are, in order, the
non-empty segments of the stage between space characters, that is the maximal
runs of characters other than the space; no token is empty or contains a space. -/
theorem C16_tokens (getenv : CStr → Option CStr) (stage : CStr) :
    get_arguments getenv stage =
      get_arguments_tokens getenv ((stage.splitOn ' ').filter (fun seg => !seg.isEmpty)) ∧
    tokens ' ' stage = (stage.splitOn ' ').filter (fun seg => !seg.isEmpty) ∧
    (∀ tok ∈ tokens ' ' stage, tok ≠ [] ∧ ' ' ∉ tok) := by
  have h1 : tokens ' ' stage = (stage.splitOn ' ').filter (fun seg => !seg.isEmpty) :=
    tokens_eq_segments ' ' stage
  refine ⟨?_, h1, fun tok ht => tokens_mem ' ' stage tok ht⟩
  unfold get_arguments
  rw [h1]

/-- Witness for C16 on the stage `  ls   -l `. -/
theorem C16_tokens_witness :
    ["ls".toList, "-l".toList] = tokens ' ' "  ls   -l ".toList ∧
    ("ls".toList ≠ [] ∧ ' ' ∉ "ls".toList) :=
  ⟨by decide,
    (C16_tokens env_foo "  ls   -l ".toList).2.2 "ls".toList (by decide)⟩

/-- Counterexample to C17 as stated: after `parse_line` on `ls | wc` the buffer
holds `ls`, NUL, NUL, ` wc`; its text is now `ls`, and parsing the same buffer
again gives one stage instead of two. -/
theorem C17_counterexample :
    (parse_line_buf env_foo "ls | wc".toList).1 =
        .ok ⟨[[some "ls".toList, none], [some "wc".toList, none]], none, none⟩ ∧
    (parse_line_buf env_foo "ls | wc".toList).2 = ['l', 's', NUL, NUL, ' ', 'w', 'c'] ∧
    (parse_line_buf env_foo (text_of (parse_line_buf env_foo "ls | wc".toList).2)).1 =
        .ok ⟨[[some "ls".toList, none]], none, none⟩ ∧
    ¬ (∀ (getenv : CStr → Option CStr) (line : CStr),
        (parse_line_buf getenv (text_of (parse_line_buf getenv line).2)).1 =
            (parse_line_buf getenv line).1 ∧
          text_of (parse_line_buf getenv line).2 = line) :=
  ⟨by rfl, by decide, by rfl,
    fun h => absurd (h env_foo "ls | wc".toList).2 (by decide)⟩

/-- C17, amended: the outcome of `parse_line` on a buffer is a function of the
text the buffer holds and of the environment; the call overwrites the buffer:
it keeps its length, every byte keeps its value or was a `|` or a space and is
now NUL, and the text it holds afterwards is a leading part of the original text. -/
theorem C17_parse_line_buffer (getenv : CStr → Option CStr) (line : CStr) :
    (parse_line_buf getenv line).1 = parse_line getenv line ∧
    List.Forall₂ overwritten line (parse_line_buf getenv line).2 ∧
    (parse_line_buf getenv line).2.length = line.length ∧
    text_of (parse_line_buf getenv line).2 <+: line :=
  ⟨parse_line_buf_fst getenv line, parse_line_buf_bytes getenv line,
    (List.Forall₂.length_eq (parse_line_buf_bytes getenv line)).symm,
    text_of_overwritten (parse_line_buf_bytes getenv line)⟩

/-- C18: with `pipe_fds` as filled by the pipe loop for `N` stages, the array has
`2(N-1)` entries; the child for stage `s` (loop variable `2s`) duplicates
`pipe_fds[2(s-1)]`, the read end of pipe `s-1`, onto standard input when
`s > 0`, and does not look at the pipes when `s = 0`, where alone the input file
is used; it duplicates `pipe_fds[2s+1]`, the write end of pipe `s`, onto
standard output when `s < N-1`, the read end of that same pipe being the
standard input of stage `s+1`, and does not look at the pipes when `s = N-1`,
where alone the output file is used. -/
theorem C18_pipe_wiring (k : Kernel) (command_no s : Nat) (inp out : Option CStr)
    (fds : List Int) (hs : s < command_no)
    (hfds : (create_pipes k (command_no - 1) 0).2 = some fds) :
    fds.length = 2 * (command_no - 1) ∧
    (0 < s → 2 * (s - 1) < fds.length ∧ ∃ r w, k.pipe (s - 1) = some (r, w) ∧
      child_stdin k inp fds (2 * s) =
        if k.dup2 r STDIN_FILENO then ⟨[.dup2 r STDIN_FILENO], none⟩
        else ⟨[.dup2 r STDIN_FILENO, .diag .dup_in_error], some (.exited EXIT_FAILURE)⟩) ∧
    (s = 0 → child_stdin k inp fds (2 * s) = child_stdin k inp [] 0) ∧
    (s < command_no - 1 → 2 * s + 1 < fds.length ∧ ∃ r w, k.pipe s = some (r, w) ∧
      (child_stdout k command_no out fds (2 * s) =
        if k.dup2 w STDOUT_FILENO then ⟨[.dup2 w STDOUT_FILENO], none⟩
        else ⟨[.dup2 w STDOUT_FILENO, .diag .dup_out_error], some (.exited EXIT_FAILURE)⟩) ∧
      (child_stdin k inp fds (2 * (s + 1)) =
        if k.dup2 r STDIN_FILENO then ⟨[.dup2 r STDIN_FILENO], none⟩
        else ⟨[.dup2 r STDIN_FILENO, .diag .dup_in_error], some (.exited EXIT_FAILURE)⟩)) ∧
    (s = command_no - 1 →
      child_stdout k command_no out fds (2 * s) = child_stdout k command_no out [] (2 * s)) := by
  obtain ⟨hl, hj⟩ := create_pipes_fds k (command_no - 1) 0 fds hfds
  refine ⟨hl, ?_, ?_, ?_, ?_⟩
  · intro h0
    obtain ⟨r, w, h1, h2, _⟩ := hj (s - 1) (by omega)
    rw [Nat.zero_add] at h1
    exact ⟨by omega, r, w, h1, child_stdin_pipe k inp fds s r h0 h2⟩
  · rintro rfl
    exact child_stdin_first k inp fds
  · intro hlt
    obtain ⟨r, w, h1, h2, h3⟩ := hj s hlt
    rw [Nat.zero_add] at h1
    exact ⟨by omega, r, w, h1, child_stdout_pipe k command_no out fds s w hlt h3,
      child_stdin_pipe k inp fds (s + 1) r (by omega) (by simpa using h2)⟩
  · intro he
    exact child_stdout_last k command_no out fds (2 * s) (by omega)

/-- Witness for C18 with two stages. -/
theorem C18_pipe_wiring_witness :
    (0 < 2 ∧ (create_pipes kernel_ok (2 - 1) 0).2 = some [3, 4]) ∧
    ([3, 4] : List Int).length = 2 * (2 - 1) :=
  ⟨⟨by decide, by decide⟩,
    (C18_pipe_wiring kernel_ok 2 0 none none [3, 4] (by decide) (by decide)).1⟩

/-- C19: a child of `exec` that reaches program replacement has run, after
setting up its standard input and output and right before `execvp`, one `close`
on each of the `2(N-1)` entries of `pipe_fds`; and the parent, when its forks
succeed, runs one `close` on each of them after the last `fork` and before the
first `wait`. -/
theorem C19_descriptors_closed (k : Kernel) (command : List Argv) (command_no : Nat)
    (inp out : Option CStr) (fds : List Int) (i : Nat)
    (hfds : (create_pipes k (command_no - 1) 0).2 = some fds) :
    fds.length = 2 * (command_no - 1) ∧
    ((exec_child k command command_no inp out fds i).fin = .replaced →
      (exec_child k command command_no inp out fds i).trace =
        (child_stdin k inp fds i).trace ++ (child_stdout k command_no out fds i).trace ++
        fds.map Ev.close ++
        [.execvp ((command.getD (i / 2) []).getD 0 none) (command.getD (i / 2) [])]) ∧
    ((∀ j, k.fork j = true) →
      (exec k command command_no inp out).trace =
        (List.range (command_no - 1)).map Ev.pipe ++
        (List.range command_no).map (fun s => Ev.fork (2 * s)) ++
        fds.map Ev.close ++ (wait_loop k command_no 0 0).trace ∧
      ∀ e ∈ (wait_loop k command_no 0 0).trace, e = .wait ∨ ∃ d, e = .diag d) := by
  have hl := (create_pipes_fds k (command_no - 1) 0 fds hfds).1
  refine ⟨hl, ?_, ?_⟩
  · intro h
    rw [exec_child_replaced k command command_no inp out fds i h, ← hl, close_pipes_all]
  · intro hf
    exact ⟨(exec_trace_ok k command command_no inp out fds hfds hf).1,
      wait_loop_trace k command_no 0 0⟩

/-- Witness for C19: the child of the second of two stages. -/
theorem C19_descriptors_closed_witness :
    ((create_pipes kernel_ok (2 - 1) 0).2 = some [3, 4] ∧
      (exec_child kernel_ok [[some "ls".toList, none], [some "wc".toList, none]] 2 none none
        [3, 4] 2).fin = .replaced) ∧
    (exec_child kernel_ok [[some "ls".toList, none], [some "wc".toList, none]] 2 none none
        [3, 4] 2).trace =
      [.dup2 3 0, .close 3, .close 4,
        .execvp (some "wc".toList) [some "wc".toList, none]] :=
  ⟨⟨by decide, by decide⟩,
    ((C19_descriptors_closed kernel_ok [[some "ls".toList, none], [some "wc".toList, none]] 2
      none none [3, 4] 2 (by decide)).2.1 (by decide)).trans (by decide)⟩

/-- C20: when the system calls of the parent succeed, `exec` calls `pipe` `N-1`
times, `fork` `N` times with the loop variable 0, 2, ..., `2(N-1)` in this
order, and `wait` `N` times, and then returns; the fork loop never runs out of
the `N+1` iterations granted to it, whatever the kernel answers. -/
theorem C20_loop_counts (k : Kernel) (command : List Argv) (command_no : Nat)
    (inp out : Option CStr)
    (hp : ∀ i, k.pipe i ≠ none) (hf : ∀ i, k.fork i = true) (hw : ∀ i, k.wait i ≠ none) :
    (exec k command command_no inp out).trace.countP Ev.is_pipe = command_no - 1 ∧
    (exec k command command_no inp out).trace.filterMap Ev.fork_index =
      (List.range command_no).map (fun s => 2 * s) ∧
    (exec k command command_no inp out).trace.countP Ev.is_wait = command_no ∧
    (∃ status, (exec k command command_no inp out).fin = .returned status) ∧
    (∀ k2 : Kernel, fork_loop k2 command_no (command_no + 1) 0 ≠ none) := by
  obtain ⟨a, b, c, d⟩ := exec_counts k command command_no inp out hp hf hw
  exact ⟨a, b, c, d, fun k2 => fork_loop_fuel_enough k2 command_no (command_no + 1) 0 (by omega)⟩

/-- Witness for C20 with three stages. -/
theorem C20_loop_counts_witness :
    ((∀ i, kernel_ok.pipe i ≠ none) ∧ (∀ i, kernel_ok.fork i = true) ∧
      (∀ i, kernel_ok.wait i ≠ none)) ∧
    (exec kernel_ok [] 3 none none).trace.filterMap Ev.fork_index =
      (List.range 3).map (fun s => 2 * s) :=
  ⟨⟨fun _ => by simp [kernel_ok], fun _ => rfl,
      fun i => by simp only [kernel_ok]; split_ifs <;> simp⟩,
    (C20_loop_counts kernel_ok [] 3 none none (fun _ => by simp [kernel_ok]) (fun _ => rfl)
      (fun i => by simp only [kernel_ok]; split_ifs <;> simp)).2.1⟩

/-- C21: when the pipes and forks succeed and the wait calls return the statuses
of the sequence in order, the signal diagnostics `exec` prints are, in order,
those of the statuses that are a termination by a signal other than `SIGPIPE`;
when every status is a termination by `SIGPIPE` or a normal exit `exec` prints
no diagnostic at all; in one turn of the wait loop a signalled status gives
the signal diagnostic exactly when the signal is not `SIGPIPE`, and a normal
exit gives none. -/
theorem C21_signal_diagnostics (k : Kernel) (command : List Argv) (inp out : Option CStr)
    (statuses : List WaitStatus)
    (hp : ∀ i, k.pipe i ≠ none) (hf : ∀ i, k.fork i = true)
    (hw : ∀ j, j < statuses.length → k.wait j = statuses[j]?) :
    (exec k command statuses.length inp out).trace.filterMap Ev.signal_diag =
        statuses.filterMap reported_signal ∧
    ((∀ s ∈ statuses, s = .signaled SIGPIPE ∨ ∃ code, s = .exited code) →
      ∀ d, Ev.diag d ∉ (exec k command statuses.length inp out).trace) ∧
    (∀ (todo i signo : Nat) (es : Int), k.wait i = some (.signaled signo) →
      wait_loop k (todo + 1) i es =
        if signo ≠ SIGPIPE then
          Run.after [.wait, .diag (.child_signal signo)] (wait_loop k todo (i + 1) es)
        else Run.after [.wait] (wait_loop k todo (i + 1) es)) ∧
    (∀ (todo i code : Nat) (es : Int), k.wait i = some (.exited code) →
      wait_loop k (todo + 1) i es = Run.after [.wait] (wait_loop k todo (i + 1) code)) := by
  obtain ⟨a, b⟩ := exec_signals k command inp out statuses hp hf hw
  refine ⟨a, b, ?_, ?_⟩
  · intro todo i signo es h
    rw [wait_loop, h]
  · intro todo i code es h
    rw [wait_loop, h]

/-- Witness for C21: two children killed by signal 9, each reported. -/
theorem C21_signal_diagnostics_witness :
    ((∀ i, kernel_killed.pipe i ≠ none) ∧ (∀ i, kernel_killed.fork i = true) ∧
      (∀ j, j < [WaitStatus.signaled 9, .signaled 9].length →
        kernel_killed.wait j = [WaitStatus.signaled 9, .signaled 9][j]?)) ∧
    (exec kernel_killed [] 2 none none).trace.filterMap Ev.signal_diag = [9, 9] :=
  ⟨⟨fun _ => by simp [kernel_killed, kernel_ok], fun _ => rfl, by decide⟩,
    (C21_signal_diagnostics kernel_killed [] none none [.signaled 9, .signaled 9]
      (fun _ => by simp [kernel_killed, kernel_ok]) (fun _ => rfl) (by decide)).1.trans
      (by decide)⟩

/-- C22: when `parse_line` succeeds on at least one stage, the input path it
hands back is the one `get_arguments` resolved for stage 0 (unset exactly when
stage 0 has no token starting with `<`), the output path is the one resolved
for the last stage (unset exactly when it has no token starting with `>`), and
every other stage resolved no input path, resp. no output path, so that none
was dropped or overwritten. -/
theorem C22_pipeline_paths (getenv : CStr → Option CStr) (line : CStr) (p : Parsed)
    (hp : parse_line getenv line = .ok p) (hN : 1 ≤ (split_commands line).length) :
    (∃ first cmd, (split_commands line)[0]? = some first ∧
      get_arguments getenv first = .ok cmd ∧
      p.input_redirect_path = cmd.input_redirect_path ∧
      (p.input_redirect_path = none ↔ carries_input first = false)) ∧
    (∃ last cmd, (split_commands line)[(split_commands line).length - 1]? = some last ∧
      get_arguments getenv last = .ok cmd ∧
      p.output_redirect_path = cmd.output_redirect_path ∧
      (p.output_redirect_path = none ↔ carries_output last = false)) ∧
    (∀ (i : Nat) (stage : CStr), (split_commands line)[i]? = some stage →
      ∃ cmd, get_arguments getenv stage = .ok cmd ∧
        (i ≠ 0 → cmd.input_redirect_path = none) ∧
        (i ≠ (split_commands line).length - 1 → cmd.output_redirect_path = none)) := by
  obtain ⟨hin, hout⟩ := parse_line_paths getenv line p hp
  have h0 : 0 < (split_commands line).length := by omega
  have hl : (split_commands line).length - 1 < (split_commands line).length := by omega
  refine ⟨?_, ?_, ?_⟩
  · obtain ⟨cmd, hg, he⟩ := hin _ (List.getElem?_eq_getElem h0)
    exact ⟨_, cmd, List.getElem?_eq_getElem h0, hg, he,
      by rw [he]; exact (carries_input_iff getenv _ cmd hg).symm⟩
  · obtain ⟨cmd, hg, he⟩ := hout _ (List.getElem?_eq_getElem hl)
    exact ⟨_, cmd, List.getElem?_eq_getElem hl, hg, he,
      by rw [he]; exact (carries_output_iff getenv _ cmd hg).symm⟩
  · intro i stage hi
    obtain ⟨cmd, hg, h1, h2⟩ := parse_loop_stage_cmd getenv _ _ 0 _ p hp i stage hi
    have hlt : i < (split_commands line).length := (List.getElem?_eq_some_iff.1 hi).1
    refine ⟨cmd, hg, ?_, ?_⟩
    · intro hne
      exact h1 (by omega) (by omega)
    · intro hne
      exact h2 (by omega) (by omega)

/-- Witness for C22 on the line `cat <in | sort | wc >out`. -/
theorem C22_pipeline_paths_witness :
    (parse_line env_foo "cat <in | sort | wc >out".toList =
        .ok ⟨[[some "cat".toList, none], [some "sort".toList, none], [some "wc".toList, none]],
          some "in".toList, some "out".toList⟩ ∧
      1 ≤ (split_commands "cat <in | sort | wc >out".toList).length) ∧
    ∃ first cmd, (split_commands "cat <in | sort | wc >out".toList)[0]? = some first ∧
      get_arguments env_foo first = .ok cmd ∧
      some "in".toList = cmd.input_redirect_path ∧
      (some "in".toList = none ↔ carries_input first = false) :=
  ⟨⟨by rfl, by decide⟩,
    (C22_pipeline_paths env_foo "cat <in | sort | wc >out".toList
      ⟨[[some "cat".toList, none], [some "sort".toList, none], [some "wc".toList, none]],
        some "in".toList, some "out".toList⟩ (by rfl) (by decide)).1⟩

end Microbash
